import Mathlib

/-!
# carbonsearch: the sorted-set algebra and the text index

A shallow embedding of `UnionMetrics`, `IntersectMetrics`, `UnionTags` and
`IntersectTags` of `index/index.go`, together with the part of Go's `container/heap`
they call (`Init`, `Push`, `Pop`, `Fix`, `up`, `down`), and of the text index of
`index/text/postings/postings.go` (`NewIndex`, `Query`, `Materialize`, `docsToMetrics`)
over its imported collaborators: the postings library, the tokenizer and the string hash.

Conventions of the embedding:

* `Metric` and `Tag` are `uint64` in the source.  The algebra only compares
  them (`<`, `<=`, `==`, `!=`), so they are embedded as `Nat`.
* A Go slice is a `List`; `[][]Metric` is `List (List Metric)`.
* A Go run-time panic (index out of range, slice bounds out of range) is the
  result `Except.error Fault.indexOutOfRange`.
* The `for { ... }` loops are structurally recursive on a fuel argument; a loop
  that exhausts its fuel yields `Except.error Fault.outOfFuel`.  The callers
  fix the fuel from the size of their input, so the top-level functions take
  no fuel argument.
-/

namespace Carbonsearch

/-- Ways in which a run of the embedded code can fail to produce a value. -/
inductive Fault where
  | indexOutOfRange
  | outOfFuel
  deriving DecidableEq, Repr

/-- The type `Metric uint64` of `index.go`. -/
abbrev Metric := Nat

/-- The type `Tag uint64` of `index.go`. -/
abbrev Tag := Nat

/-! ## `container/heap`

`index.go` imports Go's standard package `container/heap`.  Its functions are
embedded here as the standard library defines them, over the five methods of
`heap.Interface`. -/

namespace heap

/-- The methods of Go's `heap.Interface` (`sort.Interface` plus `Push` and `Pop`)
for a heap representation `H` holding elements `X`. -/
structure Interface (H X : Type) where
  Len : H → Nat
  Less : H → Nat → Nat → Except Fault Bool
  Swap : H → Nat → Nat → Except Fault H
  Push : H → X → H
  Pop : H → Except Fault (H × X)

variable {H X : Type}

/-- Go's `heap.up(h, j)`: `for { i := (j - 1) / 2; if i == j || !h.Less(j, i) { break };
h.Swap(i, j); j = i }`.  For `j = 0` Go's truncating division gives `i = 0`, as does
the natural-number expression. -/
def up (I : Interface H X) : Nat → H → Nat → Except Fault H
  | 0, _, _ => .error .outOfFuel
  | fuel + 1, h, j =>
    let i := (j - 1) / 2
    if i = j then .ok h
    else
      match I.Less h j i with
      | .error e => .error e
      | .ok false => .ok h
      | .ok true =>
        match I.Swap h i j with
        | .error e => .error e
        | .ok h1 => up I fuel h1 i

/-- The loop of Go's `heap.down(h, i0, n)`:
`for { j1 := 2*i + 1; if j1 >= n || j1 < 0 { break }; j := j1;
if j2 := j1 + 1; j2 < n && h.Less(j2, j1) { j = j2 }; if !h.Less(j, i) { break };
h.Swap(i, j); i = j }`.  The result carries the final value of the loop variable `i`.
The test `j1 < 0` catches `int` overflow only, which no slice index reaches. -/
def downLoop (I : Interface H X) : Nat → H → Nat → Nat → Except Fault (H × Nat)
  | 0, _, _, _ => .error .outOfFuel
  | fuel + 1, h, i, n =>
    let j1 := 2 * i + 1
    if j1 ≥ n then .ok (h, i)
    else
      let j2 := j1 + 1
      match (if j2 < n then I.Less h j2 j1 else .ok false) with
      | .error e => .error e
      | .ok c =>
        let j := if c then j2 else j1
        match I.Less h j i with
        | .error e => .error e
        | .ok false => .ok (h, i)
        | .ok true =>
          match I.Swap h i j with
          | .error e => .error e
          | .ok h1 => downLoop I fuel h1 j n

/-- Go's `heap.down(h, i0, n)`, returning the heap and `i > i0`. -/
def down (I : Interface H X) (h : H) (i0 n : Nat) : Except Fault (H × Bool) :=
  match downLoop I (n + 1) h i0 n with
  | .error e => .error e
  | .ok (h1, i) => .ok (h1, decide (i > i0))

/-- Go's `heap.Init`: `n := h.Len(); for i := n/2 - 1; i >= 0; i-- { down(h, i, n) }`. -/
def Init (I : Interface H X) (h : H) : Except Fault H :=
  let n := I.Len h
  (List.range (n / 2)).reverse.foldlM
    (fun h1 i =>
      match down I h1 i n with
      | .error e => .error e
      | .ok (h2, _) => .ok h2)
    h

/-- Go's `heap.Push`: `h.Push(x); up(h, h.Len()-1)`. -/
def Push (I : Interface H X) (h : H) (x : X) : Except Fault H :=
  let h1 := I.Push h x
  up I (I.Len h1) h1 (I.Len h1 - 1)

/-- Go's `heap.Pop`: `n := h.Len() - 1; h.Swap(0, n); down(h, 0, n); return h.Pop()`.
On an empty heap Go's `n` is `-1` and `Swap` panics; here `n` is `0` and `Swap` fails on
the missing position `0`. -/
def Pop (I : Interface H X) (h : H) : Except Fault (H × X) :=
  let n := I.Len h - 1
  match I.Swap h 0 n with
  | .error e => .error e
  | .ok h1 =>
    match down I h1 0 n with
    | .error e => .error e
    | .ok (h2, _) => I.Pop h2

/-- Go's `heap.Fix`: `if !down(h, i, h.Len()) { up(h, i) }`. -/
def Fix (I : Interface H X) (h : H) (i : Nat) : Except Fault H :=
  match down I h i (I.Len h) with
  | .error e => .error e
  | .ok (h1, true) => .ok h1
  | .ok (h1, false) => up I (I.Len h1 + 1) h1 i

end heap

/-! ## `MetricSetsHeap` -/

/-- The type `MetricSetsHeap [][]Metric` of `index.go`. -/
abbrev MetricSetsHeap := List (List Metric)

namespace MetricSetsHeap

/-- `func (h MetricSetsHeap) Len() int { return len(h) }`. -/
def Len (h : MetricSetsHeap) : Nat := h.length

/-- `func (h MetricSetsHeap) Less(i, j int) bool { return h[i][0] < h[j][0] }`. -/
def Less (h : MetricSetsHeap) (i j : Nat) : Except Fault Bool :=
  match h[i]?, h[j]? with
  | some (a :: _), some (b :: _) => .ok (decide (a < b))
  | _, _ => .error .indexOutOfRange

/-- `func (h MetricSetsHeap) Swap(i, j int) { h[i], h[j] = h[j], h[i] }`. -/
def Swap (h : MetricSetsHeap) (i j : Nat) : Except Fault MetricSetsHeap :=
  match h[i]?, h[j]? with
  | some a, some b => .ok ((h.set i b).set j a)
  | _, _ => .error .indexOutOfRange

/-- `func (h *MetricSetsHeap) Push(x interface{})`: `*h = append(*h, t)`. -/
def Push (h : MetricSetsHeap) (x : List Metric) : MetricSetsHeap := h ++ [x]

/-- `func (h *MetricSetsHeap) Pop() interface{}`: `x := old[n-1]; *h = old[0 : n-1]`. -/
def Pop (h : MetricSetsHeap) : Except Fault (MetricSetsHeap × List Metric) :=
  match h.getLast? with
  | none => .error .indexOutOfRange
  | some x => .ok (h.dropLast, x)

/-- `MetricSetsHeap` as a `heap.Interface`. -/
def iface : heap.Interface MetricSetsHeap (List Metric) :=
  ⟨Len, Less, Swap, Push, Pop⟩

end MetricSetsHeap

/-- Total number of elements held by a collection of sequences; the loops of the
algebra consume one element per iteration, so this bounds their fuel. -/
def totalLen (sets : List (List Nat)) : Nat := (sets.map List.length).sum

/-- The emission step shared by both operations:
`if len(set) == 0 || set[len(set)-1] != metric { set = append(set, metric) }`. -/
def emit (set : List Nat) (metric : Nat) : List Nat :=
  if set.length = 0 ∨ set.getLast? ≠ some metric then set ++ [metric] else set

/-! ## `UnionMetrics` -/

namespace UnionMetrics

/-- The seeding loop of `UnionMetrics`:
`for _, list := range metricSets { if len(list) > 0 { heap.Push(h, list) } }`. -/
def pushAll : List (List Metric) → MetricSetsHeap → Except Fault MetricSetsHeap
  | [], h => .ok h
  | list :: rest, h =>
    if list.length > 0 then
      match heap.Push MetricSetsHeap.iface h list with
      | .error e => .error e
      | .ok h1 => pushAll rest h1
    else pushAll rest h

/-- The merge loop of `UnionMetrics`: `for h.Len() > 0 { ... }`. -/
def loop : Nat → MetricSetsHeap → List Metric → Except Fault (List Metric)
  | 0, _, _ => .error .outOfFuel
  | fuel + 1, h, set =>
    if MetricSetsHeap.Len h > 0 then
      match h[0]? with
      | none => .error .indexOutOfRange
      | some cur =>
        match cur with
        | [] => .error .indexOutOfRange
        | metric :: tl =>
          let set1 := emit set metric
          if cur.length = 1 then
            match heap.Pop MetricSetsHeap.iface h with
            | .error e => .error e
            | .ok (h1, _) => loop fuel h1 set1
          else
            match heap.Fix MetricSetsHeap.iface (h.set 0 tl) 0 with
            | .error e => .error e
            | .ok h1 => loop fuel h1 set1
    else .ok set

end UnionMetrics

/-- `func UnionMetrics(metricSets [][]Metric) []Metric`. -/
def UnionMetrics (metricSets : List (List Metric)) : Except Fault (List Metric) :=
  match heap.Init MetricSetsHeap.iface [] with
  | .error e => .error e
  | .ok h0 =>
    match UnionMetrics.pushAll metricSets h0 with
    | .error e => .error e
    | .ok h => UnionMetrics.loop (totalLen metricSets + 1) h []

/-! ## `IntersectMetrics` -/

namespace IntersectMetrics

/-- The seeding loop of `IntersectMetrics`:
`for _, list := range metricSets { if len(list) == 0 { return []Metric{} }; heap.Push(h, list) }`.
The value `none` stands for the early `return []Metric{}`. -/
def pushAll : List (List Metric) → MetricSetsHeap → Except Fault (Option MetricSetsHeap)
  | [], h => .ok (some h)
  | list :: rest, h =>
    if list.length = 0 then .ok none
    else
      match heap.Push MetricSetsHeap.iface h list with
      | .error e => .error e
      | .ok h1 => pushAll rest h1

/-- The scan `for i, candidate := range *h { ... }`: the `fixups` flags
(`candidate[0] <= smallestMetric`) and the count `present`
(`candidate[0] == smallestMetric`). -/
def scan (smallestMetric : Metric) : List (List Metric) → Except Fault (List Bool × Nat)
  | [] => .ok ([], 0)
  | candidate :: rest =>
    match candidate with
    | [] => .error .indexOutOfRange
    | c :: _ =>
      match scan smallestMetric rest with
      | .error e => .error e
      | .ok (fixups, present) =>
        .ok (decide (c ≤ smallestMetric) :: fixups,
             if c = smallestMetric then present + 1 else present)

/-- The advancing loop `for i, fix := range fixups { if fix { ... } }`, started at
index `i`.  The value `none` stands for `return set`. -/
def advance : List Bool → Nat → MetricSetsHeap → Except Fault (Option MetricSetsHeap)
  | [], _, h => .ok (some h)
  | fix :: rest, i, h =>
    if fix then
      match h[i]? with
      | none => .error .indexOutOfRange
      | some list =>
        if list.length = 1 then .ok none
        else
          match list with
          | [] => .error .indexOutOfRange
          | _ :: tl =>
            match heap.Fix MetricSetsHeap.iface (h.set i tl) i with
            | .error e => .error e
            | .ok h1 => advance rest (i + 1) h1
    else advance rest (i + 1) h

/-- The outer `for { ... }` loop of `IntersectMetrics`; `nSets` is `len(metricSets)`. -/
def loop (nSets : Nat) : Nat → MetricSetsHeap → List Metric → Except Fault (List Metric)
  | 0, _, _ => .error .outOfFuel
  | fuel + 1, h, set =>
    match h[0]? with
    | none => .error .indexOutOfRange
    | some cur =>
      match cur with
      | [] => .error .indexOutOfRange
      | smallestMetric :: _ =>
        match scan smallestMetric h with
        | .error e => .error e
        | .ok (fixups, present) =>
          let set1 := if present = nSets then emit set smallestMetric else set
          match advance fixups 0 h with
          | .error e => .error e
          | .ok none => .ok set1
          | .ok (some h1) => loop nSets fuel h1 set1

end IntersectMetrics

/-- `func IntersectMetrics(metricSets [][]Metric) []Metric`. -/
def IntersectMetrics (metricSets : List (List Metric)) : Except Fault (List Metric) :=
  if metricSets.length = 0 then .ok []
  else
    match heap.Init MetricSetsHeap.iface [] with
    | .error e => .error e
    | .ok h0 =>
      match IntersectMetrics.pushAll metricSets h0 with
      | .error e => .error e
      | .ok none => .ok []
      | .ok (some h) => IntersectMetrics.loop metricSets.length (totalLen metricSets + 1) h []

/-! ## `TagSetsHeap`, `UnionTags`, `IntersectTags`

The source repeats the Metric code for Tags; the embedding repeats it as well. -/

/-- The type `TagSetsHeap [][]Tag` of `index.go`. -/
abbrev TagSetsHeap := List (List Tag)

namespace TagSetsHeap

/-- `func (h TagSetsHeap) Len() int { return len(h) }`. -/
def Len (h : TagSetsHeap) : Nat := h.length

/-- `func (h TagSetsHeap) Less(i, j int) bool { return h[i][0] < h[j][0] }`. -/
def Less (h : TagSetsHeap) (i j : Nat) : Except Fault Bool :=
  match h[i]?, h[j]? with
  | some (a :: _), some (b :: _) => .ok (decide (a < b))
  | _, _ => .error .indexOutOfRange

/-- `func (h TagSetsHeap) Swap(i, j int) { h[i], h[j] = h[j], h[i] }`. -/
def Swap (h : TagSetsHeap) (i j : Nat) : Except Fault TagSetsHeap :=
  match h[i]?, h[j]? with
  | some a, some b => .ok ((h.set i b).set j a)
  | _, _ => .error .indexOutOfRange

/-- `func (h *TagSetsHeap) Push(x interface{})`: `*h = append(*h, t)`. -/
def Push (h : TagSetsHeap) (x : List Tag) : TagSetsHeap := h ++ [x]

/-- `func (h *TagSetsHeap) Pop() interface{}`: `x := old[n-1]; *h = old[0 : n-1]`. -/
def Pop (h : TagSetsHeap) : Except Fault (TagSetsHeap × List Tag) :=
  match h.getLast? with
  | none => .error .indexOutOfRange
  | some x => .ok (h.dropLast, x)

/-- `TagSetsHeap` as a `heap.Interface`. -/
def iface : heap.Interface TagSetsHeap (List Tag) :=
  ⟨Len, Less, Swap, Push, Pop⟩

end TagSetsHeap

namespace UnionTags

/-- The seeding loop of `UnionTags`:
`for _, list := range tagSets { if len(list) > 0 { heap.Push(h, list) } }`. -/
def pushAll : List (List Tag) → TagSetsHeap → Except Fault TagSetsHeap
  | [], h => .ok h
  | list :: rest, h =>
    if list.length > 0 then
      match heap.Push TagSetsHeap.iface h list with
      | .error e => .error e
      | .ok h1 => pushAll rest h1
    else pushAll rest h

/-- The merge loop of `UnionTags`: `for h.Len() > 0 { ... }`. -/
def loop : Nat → TagSetsHeap → List Tag → Except Fault (List Tag)
  | 0, _, _ => .error .outOfFuel
  | fuel + 1, h, set =>
    if TagSetsHeap.Len h > 0 then
      match h[0]? with
      | none => .error .indexOutOfRange
      | some cur =>
        match cur with
        | [] => .error .indexOutOfRange
        | tag :: tl =>
          let set1 := emit set tag
          if cur.length = 1 then
            match heap.Pop TagSetsHeap.iface h with
            | .error e => .error e
            | .ok (h1, _) => loop fuel h1 set1
          else
            match heap.Fix TagSetsHeap.iface (h.set 0 tl) 0 with
            | .error e => .error e
            | .ok h1 => loop fuel h1 set1
    else .ok set

end UnionTags

/-- `func UnionTags(tagSets [][]Tag) []Tag`. -/
def UnionTags (tagSets : List (List Tag)) : Except Fault (List Tag) :=
  match heap.Init TagSetsHeap.iface [] with
  | .error e => .error e
  | .ok h0 =>
    match UnionTags.pushAll tagSets h0 with
    | .error e => .error e
    | .ok h => UnionTags.loop (totalLen tagSets + 1) h []

namespace IntersectTags

/-- The seeding loop of `IntersectTags`:
`for _, list := range tagSets { if len(list) == 0 { return []Tag{} }; heap.Push(h, list) }`.
The value `none` stands for the early `return []Tag{}`. -/
def pushAll : List (List Tag) → TagSetsHeap → Except Fault (Option TagSetsHeap)
  | [], h => .ok (some h)
  | list :: rest, h =>
    if list.length = 0 then .ok none
    else
      match heap.Push TagSetsHeap.iface h list with
      | .error e => .error e
      | .ok h1 => pushAll rest h1

/-- The scan `for i, candidate := range *h { ... }`: the `fixups` flags
(`candidate[0] <= smallestTag`) and the count `present` (`candidate[0] == smallestTag`). -/
def scan (smallestTag : Tag) : List (List Tag) → Except Fault (List Bool × Nat)
  | [] => .ok ([], 0)
  | candidate :: rest =>
    match candidate with
    | [] => .error .indexOutOfRange
    | c :: _ =>
      match scan smallestTag rest with
      | .error e => .error e
      | .ok (fixups, present) =>
        .ok (decide (c ≤ smallestTag) :: fixups,
             if c = smallestTag then present + 1 else present)

/-- The advancing loop `for i, fix := range fixups { if fix { ... } }`, started at
index `i`.  The value `none` stands for `return set`. -/
def advance : List Bool → Nat → TagSetsHeap → Except Fault (Option TagSetsHeap)
  | [], _, h => .ok (some h)
  | fix :: rest, i, h =>
    if fix then
      match h[i]? with
      | none => .error .indexOutOfRange
      | some list =>
        if list.length = 1 then .ok none
        else
          match list with
          | [] => .error .indexOutOfRange
          | _ :: tl =>
            match heap.Fix TagSetsHeap.iface (h.set i tl) i with
            | .error e => .error e
            | .ok h1 => advance rest (i + 1) h1
    else advance rest (i + 1) h

/-- The outer `for { ... }` loop of `IntersectTags`; `nSets` is `len(tagSets)`. -/
def loop (nSets : Nat) : Nat → TagSetsHeap → List Tag → Except Fault (List Tag)
  | 0, _, _ => .error .outOfFuel
  | fuel + 1, h, set =>
    match h[0]? with
    | none => .error .indexOutOfRange
    | some cur =>
      match cur with
      | [] => .error .indexOutOfRange
      | smallestTag :: _ =>
        match scan smallestTag h with
        | .error e => .error e
        | .ok (fixups, present) =>
          let set1 := if present = nSets then emit set smallestTag else set
          match advance fixups 0 h with
          | .error e => .error e
          | .ok none => .ok set1
          | .ok (some h1) => loop nSets fuel h1 set1

end IntersectTags

/-- `func IntersectTags(tagSets [][]Tag) []Tag`. -/
def IntersectTags (tagSets : List (List Tag)) : Except Fault (List Tag) :=
  if tagSets.length = 0 then .ok []
  else
    match heap.Init TagSetsHeap.iface [] with
    | .error e => .error e
    | .ok h0 =>
      match IntersectTags.pushAll tagSets h0 with
      | .error e => .error e
      | .ok none => .ok []
      | .ok (some h) => IntersectTags.loop tagSets.length (totalLen tagSets + 1) h []

/-! ## Predicates used to state the properties -/

/-- Every sequence held by the heap is non-empty. -/
def NE (h : List (List Nat)) : Prop := ∀ l ∈ h, l ≠ []

/-- The head of the sequence at position `i` (the heap key), `0` when absent. -/
def key (h : List (List Nat)) (i : Nat) : Nat := (h[i]?.getD []).headD 0

/-- Heap order on the first `n` positions: no key is smaller than its parent's. -/
def HeapOrd (h : List (List Nat)) (n : Nat) : Prop :=
  ∀ k, 0 < k → k < n → key h ((k - 1) / 2) ≤ key h k

/-- Heap order everywhere except between `j` and its parent, with the parent of `j`
already below the children of `j`: the state of `heap.up` at position `j`. -/
def UpInv (h : List (List Nat)) (j : Nat) : Prop :=
  (∀ k, 0 < k → k < h.length → k ≠ j → key h ((k - 1) / 2) ≤ key h k) ∧
  (∀ k, 0 < k → k < h.length → (k - 1) / 2 = j → 0 < j → key h ((j - 1) / 2) ≤ key h k)

/-- Heap order on the first `n` positions except between `i` and its children, with
the parent of `i` already below the children of `i`: the state of `heap.down` at `i`. -/
def DownInv (h : List (List Nat)) (i n : Nat) : Prop :=
  (∀ k, 0 < k → k < n → (k - 1) / 2 ≠ i → key h ((k - 1) / 2) ≤ key h k) ∧
  (∀ k, 0 < k → k < n → (k - 1) / 2 = i → 0 < i → key h ((i - 1) / 2) ≤ key h k)

/-- Every sequence of the collection is sorted ascending (duplicates allowed). -/
def AllSorted (sets : List (List Nat)) : Prop := ∀ s ∈ sets, s.Sorted (· ≤ ·)

instance (sets : List (List Nat)) : Decidable (AllSorted sets) := by
  unfold AllSorted; infer_instance

/-- Every emitted value is at most every value still held by the heap. -/
def Below (set : List Nat) (h : List (List Nat)) : Prop :=
  ∀ x ∈ set, ∀ l ∈ h, ∀ y ∈ l, x ≤ y

/-- The sequences left in the heap once the head of the root `_ :: tl` has been consumed:
the root is dropped when exhausted and replaced by its tail otherwise. -/
def remaining (tl : List Nat) (rest : List (List Nat)) : List (List Nat) :=
  if tl = [] then rest else tl :: rest

/-- The heap `h2` arises from `h` by advancing sequences: repeatedly one sequence
`_ :: tl` with `tl ≠ []` is replaced by `tl` and the heap is permuted. -/
inductive Advanced : List (List Nat) → List (List Nat) → Prop
  | refl (h : List (List Nat)) : Advanced h h
  | step {h h1 h2 : List (List Nat)} {i x : Nat} {tl : List Nat} :
      h[i]? = some (x :: tl) → tl ≠ [] → h1.Perm (h.set i tl) → Advanced h1 h2 → Advanced h h2

/-! ## One pass through the loop bodies -/

namespace UnionMetrics

/-- The body of the merge loop of `UnionMetrics`, entered with `h.Len() > 0`: the heap and
the `set` with which the next iteration starts. -/
def iter (h : MetricSetsHeap) (set : List Metric) :
    Except Fault (MetricSetsHeap × List Metric) :=
  match h[0]? with
  | none => .error .indexOutOfRange
  | some cur =>
    match cur with
    | [] => .error .indexOutOfRange
    | metric :: tl =>
      let set1 := emit set metric
      if cur.length = 1 then
        match heap.Pop MetricSetsHeap.iface h with
        | .error e => .error e
        | .ok (h1, _) => .ok (h1, set1)
      else
        match heap.Fix MetricSetsHeap.iface (h.set 0 tl) 0 with
        | .error e => .error e
        | .ok h1 => .ok (h1, set1)

end UnionMetrics

namespace IntersectMetrics

/-- The body of the outer loop of `IntersectMetrics`: `Sum.inl set` is `return set`,
`Sum.inr (h, set)` is the state with which the next iteration starts. -/
def iter (nSets : Nat) (h : MetricSetsHeap) (set : List Metric) :
    Except Fault (List Metric ⊕ (MetricSetsHeap × List Metric)) :=
  match h[0]? with
  | none => .error .indexOutOfRange
  | some cur =>
    match cur with
    | [] => .error .indexOutOfRange
    | smallestMetric :: _ =>
      match scan smallestMetric h with
      | .error e => .error e
      | .ok (fixups, present) =>
        let set1 := if present = nSets then emit set smallestMetric else set
        match advance fixups 0 h with
        | .error e => .error e
        | .ok none => .ok (.inl set1)
        | .ok (some h1) => .ok (.inr (h1, set1))

end IntersectMetrics

/-! ## Hashing of names (`index.go`) -/

/-- `func HashMetric(metric string) Metric { return Metric(util.HashStr64(metric)) }`; the
64-bit string hash `util.HashStr64` is a parameter. -/
def HashMetric (HashStr64 : String → Nat) (metric : String) : Metric := HashStr64 metric

/-- `func HashMetrics(metrics []string) []Metric`: `result[i] = HashMetric(metric)` for every
index. -/
def HashMetrics (HashStr64 : String → Nat) (metrics : List String) : List Metric :=
  metrics.map (HashMetric HashStr64)

/-- `func HashTag(tag string) Tag { return Tag(util.HashStr64(tag)) }`. -/
def HashTag (HashStr64 : String → Nat) (tag : String) : Tag := HashStr64 tag

/-- `func HashTags(tags []string) []Tag`. -/
def HashTags (HashStr64 : String → Nat) (tags : List String) : List Tag :=
  tags.map (HashTag HashStr64)

/-! ## The text index of `index/text/postings/postings.go` -/

/-- The type `postings.DocID` of the postings library. -/
abbrev DocID := Nat

/-- The type `postings.TermID` of the postings library (`uint32`). -/
abbrev TermID := Nat

/-- A Go `map[K]V`, given by its lookup `m[k]`: `none` is the `ok == false` answer. -/
abbrev GoMap (K V : Type) := K → Option V

/-- The map literal `map[K]V{}`. -/
def GoMap.empty {K V : Type} : GoMap K V := fun _ => none

/-- The assignment `m[k] = v`. -/
def GoMap.insert {K V : Type} [DecidableEq K] (m : GoMap K V) (k : K) (v : V) : GoMap K V :=
  fun x => if x = k then some v else m x

/-- The operations of the imported postings library `go-postings` that `postings.go` calls.
The library is not part of the repository; its operations are parameters of the embedding:
`postings.NewIndex(nil)`, the literal `&postings.CompressedIndex{}`, `AddDocument`, `Empty`,
`postings.NewCompressedIndex` and `postings.Query`. -/
structure Engine where
  WriteIndex : Type
  CompressedIndex : Type
  NewIndex : WriteIndex
  emptyCompressed : CompressedIndex
  AddDocument : WriteIndex → List TermID → WriteIndex × DocID
  Empty : WriteIndex → WriteIndex
  NewCompressedIndex : WriteIndex → CompressedIndex
  Query : CompressedIndex → List TermID → List DocID

/-- What `postings.go` imports: the postings library, the string hash `util.HashStr64`, the
tokenizer `document.Tokenize`, which returns the tokens or the text of an error, and, through
`fmt`, the quoted character literal `strconv.QuoteRune` of a valid rune. -/
structure Collaborators where
  engine : Engine
  HashStr64 : String → Nat
  Tokenize : String → Except String (List Nat)
  QuoteRune : Nat → String

namespace utf8

/-- Go's `utf8.MaxRune`, `U+10FFFF`. -/
def MaxRune : Nat := 0x10FFFF

/-- Go's `utf8.RuneError`, `U+FFFD`. -/
def RuneError : Nat := 0xFFFD

/-- Go's `utf8.ValidRune`: `0 <= r && r < surrogateMin`, or
`surrogateMax < r && r <= MaxRune`. -/
def ValidRune (r : Nat) : Bool := r < 0xD800 || (0xDFFF < r && r ≤ MaxRune)

end utf8

/-- What Go's `fmt` prints for the verb `%q` applied to an unsigned integer `c`
(`fmt.fmtQc`): `r := rune(c); if c > utf8.MaxRune { r = utf8.RuneError }`, then
`strconv.AppendQuoteRune`, which starts with `if !utf8.ValidRune(r) { r = utf8.RuneError }`
and quotes the valid rune it is left with (`QuoteRune`). -/
def fmtQc (QuoteRune : Nat → String) (c : Nat) : String :=
  let r := if c > utf8.MaxRune then utf8.RuneError else c
  QuoteRune (if utf8.ValidRune r then r else utf8.RuneError)

/-- Modelled from the spec: the postings library is an opaque collaborator "providing an
append-only write structure, a compile step to an immutable read structure, and a multi-term
AND query".  `docs w` lists the documents added to the write structure `w` since its last
reset, each with its token sequence: a new or emptied structure holds none, `AddDocument`
appends one under a Document that no held document has, and a query on the compiled
structure answers, without repetition, the Documents whose tokens include every queried
token. -/
structure Engine.Laws (E : Engine) (docs : E.WriteIndex → List (DocID × List TermID)) :
    Prop where
  newIndex : docs E.NewIndex = []
  empty : ∀ w, docs (E.Empty w) = []
  addDocument : ∀ w ts, docs (E.AddDocument w ts).1 = docs w ++ [((E.AddDocument w ts).2, ts)]
  fresh : ∀ w ts, ∀ p ∈ docs w, p.1 ≠ (E.AddDocument w ts).2
  query : ∀ w q d,
    d ∈ E.Query (E.NewCompressedIndex w) q ↔ ∃ ts, (d, ts) ∈ docs w ∧ ∀ t ∈ q, t ∈ ts
  query_nodup : ∀ w q, (E.Query (E.NewCompressedIndex w) q).Nodup

namespace postings

/-- The struct `Index` of `postings.go`; the three `atomic.Value` fields are given by the
value they currently hold. -/
structure Index (E : Engine) where
  writeIdx : E.WriteIndex
  idx : E.CompressedIndex
  docMetric : GoMap DocID Metric
  metricMap : GoMap Metric String

/-- `func NewIndex() *Index`. -/
def NewIndex (E : Engine) : Index E :=
  { writeIdx := E.NewIndex
    idx := E.emptyCompressed
    metricMap := GoMap.empty
    docMetric := GoMap.empty }

/-- `func (pi *Index) Name() string`. -/
def Name : String := "postinglist text index"

/-- The text of the error of `docsToMetrics`: `fmt.Errorf("%s docsToMetrics: docID %q was
missing in the docToMetric map! this is awful!", pi.Name(), docID)`.  A Go `error` built by
`fmt.Errorf` is its text. -/
def missingDocError (QuoteRune : Nat → String) (docID : DocID) : String :=
  Name ++ " docsToMetrics: docID " ++ fmtQc QuoteRune docID ++
    " was missing in the docToMetric map! this is awful!"

/-- The text of the error of `Query`: `fmt.Errorf("%v Query: error unmapping doc IDs: %v",
pi.Name(), err)`. -/
def unmappingError (err : String) : String :=
  Name ++ " Query: error unmapping doc IDs: " ++ err

/-- The text `Materialize` panics with: `fmt.Sprintf("%v: cannot tokenize %q: %v",
pi.Name(), metric, err)`. -/
def cannotTokenizeMessage (QuoteRune : Nat → String) (metric : Metric) (err : String) :
    String :=
  Name ++ ": cannot tokenize " ++ fmtQc QuoteRune metric ++ ": " ++ err

/-- A panic of `Materialize`: the explicit `panic` with its text, or an index out of range
at `hashed[i]`. -/
inductive MaterializePanic where
  | cannotTokenize (message : String)
  | indexOutOfRange
  deriving DecidableEq, Repr

/-- `func unsafeTermIDSlice(v []uint32) []postings.TermID`: the same slice, retyped. -/
def unsafeTermIDSlice (v : List Nat) : List TermID := v

/-- `func (pi *Index) MetricMap() map[index.Metric]string`. -/
def MetricMap {E : Engine} (pi : Index E) : GoMap Metric String := pi.metricMap

/-- `func (pi *Index) index() *postings.CompressedIndex`. -/
def index {E : Engine} (pi : Index E) : E.CompressedIndex := pi.idx

/-- `func (pi *Index) docToMetricMap() map[postings.DocID]index.Metric`. -/
def docToMetricMap {E : Engine} (pi : Index E) : GoMap DocID Metric := pi.docMetric

/-- The loop of `docsToMetrics`: `for _, docID := range docIDs { metric, ok := docMap[docID];
if !ok { return nil, fmt.Errorf(...) }; metrics = append(metrics, metric) }`. -/
def docsToMetricsLoop (QuoteRune : Nat → String) (docMap : GoMap DocID Metric) :
    List DocID → List Metric → Except String (List Metric)
  | [], metrics => .ok metrics
  | docID :: rest, metrics =>
    match docMap docID with
    | none => .error (missingDocError QuoteRune docID)
    | some metric => docsToMetricsLoop QuoteRune docMap rest (metrics ++ [metric])

/-- `func (pi *Index) docsToMetrics(docIDs postings.Postings) ([]index.Metric, error)`. -/
def docsToMetrics (C : Collaborators) (pi : Index C.engine) (docIDs : List DocID) :
    Except String (List Metric) :=
  docsToMetricsLoop C.QuoteRune (docToMetricMap pi) docIDs []

/-- `func (pi *Index) Query(tokens []uint32) ([]index.Metric, error)`. -/
def Query (C : Collaborators) (pi : Index C.engine) (tokens : List Nat) :
    Except String (List Metric) :=
  let docIDs := C.engine.Query (index pi) (unsafeTermIDSlice tokens)
  match docsToMetrics C pi docIDs with
  | .error err => .error (unmappingError err)
  | .ok metrics => .ok metrics

/-- The loop of `Materialize`, `for i, rawMetric := range rawMetrics { ... }`, from index `i`
on: the write structure it leaves and either the panic or the two maps it has built. -/
def materializeLoop (C : Collaborators) (hashed : List Metric) :
    List String → Nat → C.engine.WriteIndex → GoMap DocID Metric → GoMap Metric String →
    C.engine.WriteIndex × Except MaterializePanic (GoMap DocID Metric × GoMap Metric String)
  | [], _, w, newDocToMetric, newMetricMap => (w, .ok (newDocToMetric, newMetricMap))
  | rawMetric :: rest, i, w, newDocToMetric, newMetricMap =>
    match hashed[i]? with
    | none => (w, .error .indexOutOfRange)
    | some metric =>
      match C.Tokenize rawMetric with
      | .error err => (w, .error (.cannotTokenize (cannotTokenizeMessage C.QuoteRune metric err)))
      | .ok tokens =>
        let r := C.engine.AddDocument w (unsafeTermIDSlice tokens)
        materializeLoop C hashed rest (i + 1) r.1
          (newDocToMetric.insert r.2 metric) (newMetricMap.insert metric rawMetric)

/-- `func (pi *Index) Materialize(rawMetrics []string) int`: the index it leaves, and the
returned count or the panic. -/
def Materialize (C : Collaborators) (pi : Index C.engine) (rawMetrics : List String) :
    Index C.engine × Except MaterializePanic Nat :=
  let hashed := HashMetrics C.HashStr64 rawMetrics
  match materializeLoop C hashed rawMetrics 0 pi.writeIdx GoMap.empty GoMap.empty with
  | (w, .error p) => ({ pi with writeIdx := w }, .error p)
  | (w, .ok (newDocToMetric, newMetricMap)) =>
    ({ writeIdx := C.engine.Empty w
       idx := C.engine.NewCompressedIndex w
       docMetric := newDocToMetric
       metricMap := newMetricMap },
     .ok rawMetrics.length)

/-! ### A query running while `Materialize` publishes

`Materialize` publishes with three separate `atomic.Value.Store` calls and `Query` reads with
two separate `atomic.Value.Load` calls.  A schedule interleaves these atomic steps. -/

/-- The three stores at the end of `Materialize`, in program order, publishing the members
of `new`: `pi.idx.Store`, `pi.docMetric.Store`, `pi.metricMap.Store`. -/
def stores {E : Engine} (new : Index E) : List (Index E → Index E) :=
  [fun s => { s with idx := new.idx },
   fun s => { s with docMetric := new.docMetric },
   fun s => { s with metricMap := new.metricMap }]

/-- Where a running `Query` stands: before `pi.index()`, after `postings.Query` with the
Documents it got, or returned. -/
inductive QueryThread where
  | start
  | gotDocs (docIDs : List DocID)
  | done (result : Except String (List Metric))

/-- The next atomic step of a running `Query` against the shared index `s`: the load in
`pi.index()` followed by `postings.Query`, then the load in `pi.docToMetricMap()` followed by
the rest of `docsToMetrics` and of `Query`. -/
def QueryThread.step (C : Collaborators) (tokens : List Nat) (s : Index C.engine) :
    QueryThread → QueryThread
  | .start => .gotDocs (C.engine.Query (index s) (unsafeTermIDSlice tokens))
  | .gotDocs docIDs =>
    .done (match docsToMetrics C s docIDs with
      | .error err => .error (unmappingError err)
      | .ok metrics => .ok metrics)
  | .done r => .done r

/-- Runs a schedule: `true` lets `Materialize` perform its next store, `false` lets the
`Query` perform its next step. -/
def interleave (C : Collaborators) (tokens : List Nat) :
    List Bool → Index C.engine → List (Index C.engine → Index C.engine) → QueryThread →
    Index C.engine × QueryThread
  | [], s, _, q => (s, q)
  | true :: sch, s, st :: sts, q => interleave C tokens sch (st s) sts q
  | true :: sch, s, [], q => interleave C tokens sch s [] q
  | false :: sch, s, sts, q => interleave C tokens sch s sts (q.step C tokens s)

end postings

/-! ## A reference instance of the collaborators -/

/-- Modelled from the spec: a postings engine that keeps the token sequences in the order
they were added, uses the position as Document, and answers a query with the positions whose
tokens include every queried token. -/
def listEngine : Engine where
  WriteIndex := List (List TermID)
  CompressedIndex := List (List TermID)
  NewIndex := []
  emptyCompressed := []
  AddDocument := fun w ts => (w ++ [ts], w.length)
  Empty := fun _ => []
  NewCompressedIndex := fun w => w
  Query := fun c q => (List.range c.length).filter
    (fun d => q.all (fun t => (c.getD d []).contains t))

/-- The documents held by a write structure of `listEngine`. -/
def listEngine.docs (w : List (List TermID)) : List (DocID × List TermID) := w.enum

/-- A tokenizer for the reference instance: the character codes of the name; the empty name
does not tokenize. -/
def charTokenize (s : String) : Except String (List Nat) :=
  if s = "" then .error "empty name" else .ok (s.toList.map Char.toNat)

/-- A string hash for the reference instance: the character codes read as digits in base 256. -/
def charHash (s : String) : Nat := s.toList.foldl (fun acc c => acc * 256 + c.toNat) 0

/-- A quoting for the reference instance: the character between single quotes, without the
escapes of `strconv.QuoteRune`. -/
def charQuote (r : Nat) : String := "'" ++ String.singleton (Char.ofNat r) ++ "'"

/-- The reference collaborators: `listEngine`, `charHash`, `charTokenize`, `charQuote`. -/
def refCollab : Collaborators := ⟨listEngine, charHash, charTokenize, charQuote⟩

/-- The reference collaborators with a tokenizer that gives every name the same token. -/
def oneTokenCollab : Collaborators := ⟨listEngine, charHash, fun _ => .ok [7], charQuote⟩

/-- Modelled from the spec: a postings engine whose compiled structure answers every query
with the fixed Documents `docIDs`; the library is opaque, so it may return any Documents. -/
def answerEngine (docIDs : List DocID) : Engine where
  WriteIndex := Unit
  CompressedIndex := Unit
  NewIndex := ()
  emptyCompressed := ()
  AddDocument := fun w _ => (w, 0)
  Empty := fun w => w
  NewCompressedIndex := fun w => w
  Query := fun _ _ => docIDs

/-- Collaborators over `answerEngine docIDs`, with `QuoteRune` for `strconv.QuoteRune`. -/
def answerCollab (QuoteRune : Nat → String) (docIDs : List DocID) : Collaborators :=
  ⟨answerEngine docIDs, charHash, charTokenize, QuoteRune⟩

/-- An index over `answerEngine docIDs` whose Document→Metric map holds the single entry
`docID ↦ metric`. -/
def answerIndex (docIDs : List DocID) (docID : DocID) (metric : Metric) :
    postings.Index (answerEngine docIDs) :=
  { postings.NewIndex (answerEngine docIDs) with
    docMetric := (GoMap.empty : GoMap DocID Metric).insert docID metric }

/-- The generation published by `Materialize ["a"]` on a new index of the reference
instance. -/
def exampleOld : postings.Index refCollab.engine :=
  (postings.Materialize refCollab (postings.NewIndex listEngine) ["a"]).1

/-- The generation published by a following `Materialize ["b"]`. -/
def exampleNew : postings.Index refCollab.engine :=
  (postings.Materialize refCollab exampleOld ["b"]).1

/-! ## The binary heap of `container/heap` over `MetricSetsHeap` -/

theorem NE.of_perm {h h1 : List (List Nat)} (hp : h1.Perm h) (hne : NE h) : NE h1 :=
  fun l hl => hne l (hp.subset hl)

theorem Less_eq {h : MetricSetsHeap} (hne : NE h) {i j : Nat} (hi : i < h.length)
    (hj : j < h.length) :
    MetricSetsHeap.Less h i j = .ok (decide (key h i < key h j)) := by
  have h1 := hne _ (List.getElem_mem hi)
  have h2 := hne _ (List.getElem_mem hj)
  unfold MetricSetsHeap.Less key
  rw [List.getElem?_eq_getElem hi, List.getElem?_eq_getElem hj]
  cases hA : h[i] with
  | nil => exact absurd hA h1
  | cons a ta =>
    cases hB : h[j] with
    | nil => exact absurd hB h2
    | cons b tb => simp

theorem Swap_eq {h : MetricSetsHeap} {i j : Nat} (hi : i < h.length) (hj : j < h.length) :
    MetricSetsHeap.Swap h i j = .ok ((h.set i h[j]).set j h[i]) := by
  unfold MetricSetsHeap.Swap
  rw [List.getElem?_eq_getElem hi, List.getElem?_eq_getElem hj]

theorem swap_perm {α : Type} [DecidableEq α] (h : List α) {i j : Nat} (hi : i < h.length)
    (hj : j < h.length) : ((h.set i h[j]).set j h[i]).Perm h := by
  rw [List.perm_iff_count]
  intro a
  rw [List.count_set _ _ _ _ (by simpa using hj), List.count_set _ _ _ _ hi]
  by_cases hij : i = j
  · subst hij
    simp
    have := List.count_pos_iff.mpr (List.getElem_mem hi)
    split <;> simp_all
  · rw [List.getElem_set_ne hij]
    have h1 : 0 < List.count h[i] h := List.count_pos_iff.mpr (List.getElem_mem hi)
    have h2 : 0 < List.count h[j] h := List.count_pos_iff.mpr (List.getElem_mem hj)
    by_cases e1 : h[i] = a <;> by_cases e2 : h[j] = a <;> simp [e1, e2] <;>
      first | omega | (subst e1; omega)

theorem key_swap {h : List (List Nat)} {i j : Nat} (hi : i < h.length) (hj : j < h.length)
    (k : Nat) :
    key ((h.set i h[j]).set j h[i]) k
      = if k = j then key h i else if k = i then key h j else key h k := by
  unfold key
  simp only [List.getElem?_set, List.length_set]
  by_cases h1 : k = j
  · subst h1; simp [hj, List.getElem?_eq_getElem hi]
  · by_cases h2 : k = i
    · subst h2; simp [h1, Ne.symm h1, hi, List.getElem?_eq_getElem hj]
    · simp [h1, h2, Ne.symm h1, Ne.symm h2]

theorem up_spec (fuel : Nat) : ∀ (h : MetricSetsHeap) (j : Nat), NE h → j < h.length →
    j < fuel →
    ∃ h1, heap.up MetricSetsHeap.iface fuel h j = .ok h1 ∧ h1.Perm h ∧
      (UpInv h j → HeapOrd h1 h.length) := by
  induction fuel with
  | zero => intro h j _ _ hf; omega
  | succ fuel ih =>
    intro h j hne hj hf
    unfold heap.up
    by_cases hij : (j - 1) / 2 = j
    · simp only [hij, if_true]
      refine ⟨h, rfl, List.Perm.refl _, ?_⟩
      intro hinv k hk0 hkn
      exact hinv.1 k hk0 hkn (by omega)
    · have hi : (j - 1) / 2 < h.length := by omega
      have hlt : (j - 1) / 2 < j := by omega
      simp only [hij, if_false, MetricSetsHeap.iface, Less_eq hne hj hi]
      by_cases hless : key h j < key h ((j - 1) / 2)
      · simp only [hless, decide_True, Swap_eq hi hj]
        have hperm := swap_perm h hi hj
        obtain ⟨h1, e1, p1, o1⟩ := ih ((h.set ((j - 1) / 2) h[j]).set j h[(j - 1) / 2])
          ((j - 1) / 2) (hne.of_perm hperm) (by simpa using hi) (by omega)
        refine ⟨h1, e1, p1.trans hperm, ?_⟩
        intro hinv
        have := o1 ?_
        · simpa using this
        · constructor
          · intro k hk0 hkn hki
            simp only [List.length_set] at hkn
            rw [key_swap hi hj, key_swap hi hj]
            by_cases hkj : k = j
            · subst hkj
              simp only [if_true, if_neg hij, if_pos]
              omega
            · have a1 := hinv.1 k hk0 hkn hkj
              have a2 := hinv.2 k hk0 hkn
              simp only [if_neg hkj, if_neg hki]
              by_cases hp1 : (k - 1) / 2 = j
              · simp only [if_pos hp1]
                exact a2 hp1 (by omega)
              · simp only [if_neg hp1]
                by_cases hp2 : (k - 1) / 2 = (j - 1) / 2
                · simp only [if_pos hp2]
                  rw [hp2] at a1; omega
                · simp only [if_neg hp2]; exact a1
          · intro k hk0 hkn hpk hi0
            simp only [List.length_set] at hkn
            rw [key_swap hi hj, key_swap hi hj]
            have hpi1 : ((j - 1) / 2 - 1) / 2 ≠ j := by omega
            have hpi2 : ((j - 1) / 2 - 1) / 2 ≠ (j - 1) / 2 := by omega
            simp only [if_neg hpi1, if_neg hpi2]
            have b1 := hinv.1 _ hi0 hi (by omega)
            by_cases hkj : k = j
            · simp only [if_pos hkj]; exact b1
            · have hki : k ≠ (j - 1) / 2 := by omega
              simp only [if_neg hkj, if_neg hki]
              have a1 := hinv.1 k hk0 hkn hkj
              rw [hpk] at a1
              omega
      · simp only [hless, decide_False]
        refine ⟨h, rfl, List.Perm.refl _, ?_⟩
        intro hinv k hk0 hkn
        by_cases hkj : k = j
        · subst hkj; omega
        · exact hinv.1 k hk0 hkn hkj

theorem swap_getElem?_ne {h : List (List Nat)} {i j k : Nat} (a b : List Nat) (hi : k ≠ i)
    (hj : k ≠ j) : ((h.set i a).set j b)[k]? = h[k]? := by
  rw [List.getElem?_set_ne (Ne.symm hj), List.getElem?_set_ne (Ne.symm hi)]

theorem downLoop_spec (fuel : Nat) : ∀ (h : MetricSetsHeap) (i n : Nat), NE h →
    n ≤ h.length → n - i < fuel →
    ∃ h1 i1, heap.downLoop MetricSetsHeap.iface fuel h i n = .ok (h1, i1) ∧ h1.Perm h ∧
      i ≤ i1 ∧ (∀ k, n ≤ k → h1[k]? = h[k]?) ∧ (DownInv h i n → HeapOrd h1 n) := by
  induction fuel with
  | zero => intro h i n _ _ hf; omega
  | succ fuel ih =>
    intro h i n hne hn hf
    unfold heap.downLoop
    by_cases hj1 : 2 * i + 1 ≥ n
    · simp only [hj1, if_true]
      refine ⟨h, i, rfl, List.Perm.refl _, le_refl _, fun _ _ => rfl, ?_⟩
      intro hinv k hk0 hkn
      exact hinv.1 k hk0 hkn (by omega)
    · simp only [hj1, if_false]
      have hi : i < h.length := by omega
      have hc : ∃ c : Bool,
          (if 2 * i + 1 + 1 < n then MetricSetsHeap.iface.Less h (2 * i + 1 + 1) (2 * i + 1)
            else Except.ok false) = Except.ok c ∧
          (if c then 2 * i + 1 + 1 else 2 * i + 1) < n ∧
          ((if c then 2 * i + 1 + 1 else 2 * i + 1) - 1) / 2 = i ∧
          i < (if c then 2 * i + 1 + 1 else 2 * i + 1) ∧
          (∀ k, 0 < k → k < n → (k - 1) / 2 = i →
            key h (if c then 2 * i + 1 + 1 else 2 * i + 1) ≤ key h k) := by
        by_cases hj2 : 2 * i + 1 + 1 < n
        · simp only [hj2, if_true, MetricSetsHeap.iface,
            Less_eq hne (show 2 * i + 1 + 1 < h.length by omega)
              (show 2 * i + 1 < h.length by omega)]
          by_cases hl : key h (2 * i + 1 + 1) < key h (2 * i + 1)
          · refine ⟨true, by simp [hl], by simpa using hj2, by simp; omega, by simp; omega, ?_⟩
            intro k hk0 hkn hpk
            have : k = 2 * i + 1 ∨ k = 2 * i + 1 + 1 := by omega
            rcases this with e | e <;> (subst e; simp <;> omega)
          · refine ⟨false, by simp [hl], by simp; omega, by simp, by simp; omega, ?_⟩
            intro k hk0 hkn hpk
            have : k = 2 * i + 1 ∨ k = 2 * i + 1 + 1 := by omega
            rcases this with e | e <;> (subst e; simp <;> omega)
        · refine ⟨false, by simp [hj2], by simp; omega, by simp, by simp; omega, ?_⟩
          intro k hk0 hkn hpk
          have : k = 2 * i + 1 := by omega
          subst this; simp
      obtain ⟨c, hc1, hjn, hjp, hij, hjmin⟩ := hc
      rw [hc1]
      dsimp only
      generalize (if c then 2 * i + 1 + 1 else 2 * i + 1) = j at hjn hjp hij hjmin ⊢
      have hj : j < h.length := by omega
      simp only [MetricSetsHeap.iface, Less_eq hne hj hi]
      by_cases hless : key h j < key h i
      · simp only [hless, decide_True, Swap_eq hi hj]
        have hperm := swap_perm h hi hj
        obtain ⟨h1, i1, e1, p1, le1, f1, o1⟩ := ih ((h.set i h[j]).set j h[i]) j n
          (hne.of_perm hperm) (by simpa using hn) (by omega)
        refine ⟨h1, i1, e1, p1.trans hperm, by omega, ?_, ?_⟩
        · intro k hk
          rw [f1 k hk]
          exact swap_getElem?_ne _ _ (by omega) (by omega)
        · intro hinv
          apply o1
          constructor
          · intro k hk0 hkn hpk
            rw [key_swap hi hj, key_swap hi hj]
            have hpj : (k - 1) / 2 ≠ j := hpk
            simp only [if_neg hpj]
            by_cases hkj : k = j
            · subst hkj
              simp only [if_pos hjp, if_true]
              omega
            · simp only [if_neg hkj]
              by_cases hki : k = i
              · subst hki
                have hpi : (k - 1) / 2 ≠ k := by omega
                simp only [if_neg hpi, if_true]
                have := hinv.2 j (by omega) hjn hjp hk0
                exact this
              · simp only [if_neg hki]
                by_cases hpi : (k - 1) / 2 = i
                · simp only [if_pos hpi]
                  exact hjmin k hk0 hkn hpi
                · simp only [if_neg hpi]
                  exact hinv.1 k hk0 hkn hpi
          · intro k hk0 hkn hpk hj0
            rw [key_swap hi hj, key_swap hi hj]
            have h1 : (j - 1) / 2 ≠ j := by omega
            have h2 : k ≠ j := by omega
            have h3 : k ≠ i := by omega
            simp only [if_neg h1, if_pos hjp, if_neg h2, if_neg h3]
            have := hinv.1 k hk0 hkn (by omega)
            rw [hpk] at this
            omega
      · simp only [hless, decide_False]
        refine ⟨h, i, rfl, List.Perm.refl _, le_refl _, fun _ _ => rfl, ?_⟩
        intro hinv k hk0 hkn
        by_cases hpk : (k - 1) / 2 = i
        · have := hjmin k hk0 hkn hpk
          rw [hpk]; omega
        · exact hinv.1 k hk0 hkn hpk

theorem down_spec (h : MetricSetsHeap) (i n : Nat) (hne : NE h) (hn : n ≤ h.length) :
    ∃ h1 b, heap.down MetricSetsHeap.iface h i n = .ok (h1, b) ∧ h1.Perm h ∧
      (∀ k, n ≤ k → h1[k]? = h[k]?) ∧ (DownInv h i n → HeapOrd h1 n) := by
  obtain ⟨h1, i1, e1, p1, _, f1, o1⟩ := downLoop_spec (n + 1) h i n hne hn (by omega)
  exact ⟨h1, decide (i1 > i), by simp [heap.down, e1], p1, f1, o1⟩

theorem key_append_left {h : List (List Nat)} {k : Nat} (hk : k < h.length) (x : List Nat) :
    key (h ++ [x]) k = key h k := by
  unfold key
  rw [List.getElem?_append_left hk]

theorem Push_spec (h : MetricSetsHeap) (x : List Metric) (hne : NE h) (hx : x ≠ []) :
    ∃ h1, heap.Push MetricSetsHeap.iface h x = .ok h1 ∧ h1.Perm (x :: h) ∧
      (HeapOrd h h.length → HeapOrd h1 h1.length) := by
  have hne1 : NE (h ++ [x]) := by
    intro l hl
    rcases List.mem_append.mp hl with hl | hl
    · exact hne l hl
    · simp at hl; subst hl; exact hx
  obtain ⟨h1, e1, p1, o1⟩ := up_spec (h ++ [x]).length (h ++ [x]) ((h ++ [x]).length - 1) hne1
    (by simp) (by simp)
  have hp : h1.Perm (x :: h) := p1.trans (by simp)
  refine ⟨h1, e1, hp, ?_⟩
  intro ho
  rw [p1.length_eq]
  apply o1
  constructor
  · intro k hk0 hkn hkj
    simp only [List.length_append, List.length_singleton, Nat.add_sub_cancel] at hkn hkj
    have hk : k < h.length := by omega
    rw [key_append_left hk, key_append_left (by omega)]
    exact ho k hk0 hk
  · intro k hk0 hkn hpk
    simp only [List.length_append, List.length_singleton, Nat.add_sub_cancel] at hkn hpk
    omega

theorem key_take {h : List (List Nat)} {k n : Nat} (hk : k < n) :
    key (h.take n) k = key h k := by
  unfold key
  rw [List.getElem?_take_of_lt hk]

theorem Pop_spec (h : MetricSetsHeap) (hne : NE h) (hpos : 0 < h.length) :
    ∃ h1 x, heap.Pop MetricSetsHeap.iface h = .ok (h1, x) ∧ h[0]? = some x ∧
      (x :: h1).Perm h ∧ (HeapOrd h h.length → HeapOrd h1 h1.length) := by
  have hn : h.length - 1 < h.length := by omega
  have hperm := swap_perm h hpos hn
  obtain ⟨h2, b, e2, p2, f2, o2⟩ := down_spec ((h.set 0 h[h.length - 1]).set (h.length - 1) h[0])
    0 (h.length - 1) (hne.of_perm hperm) (by simp)
  have hlen2 : h2.length = h.length := by simpa using p2.length_eq
  have hlast : h2[h.length - 1]? = some h[0] := by
    rw [f2 _ (le_refl _)]
    rw [List.getElem?_set_self (by simpa using hn)]
  have hgl : h2.getLast? = some h[0] := by
    rw [List.getLast?_eq_getElem?, hlen2]; exact hlast
  have hne2 : h2 ≠ [] := by
    intro e; rw [e] at hlen2; simp at hlen2; omega
  have hsplit : h2.dropLast ++ [h[0]] = h2 := by
    have := List.dropLast_append_getLast hne2
    rw [List.getLast?_eq_getLast _ hne2] at hgl
    simp only [Option.some.injEq] at hgl
    rw [hgl] at this; exact this
  refine ⟨h2.dropLast, h[0], ?_, List.getElem?_eq_getElem hpos, ?_, ?_⟩
  · unfold heap.Pop
    simp only [MetricSetsHeap.iface, MetricSetsHeap.Len, Swap_eq hpos hn]
    simp only [MetricSetsHeap.iface] at e2
    rw [e2]
    simp [MetricSetsHeap.Pop, hgl]
  · have : (h[0] :: h2.dropLast).Perm h2 := by
      conv_rhs => rw [← hsplit]
      simpa using (@List.perm_append_comm _ [h[0]] h2.dropLast)
    exact this.trans (p2.trans hperm)
  · intro ho
    have hdl : h2.dropLast.length = h.length - 1 := by simp [hlen2]
    rw [hdl]
    have h3 := o2 ?_
    · intro k hk0 hkn
      rw [List.dropLast_eq_take, hlen2, key_take hkn, key_take (by omega)]
      exact h3 k hk0 hkn
    · constructor
      · intro k hk0 hkn hpk
        rw [key_swap hpos hn, key_swap hpos hn]
        have a1 : (k - 1) / 2 ≠ h.length - 1 := by omega
        have a2 : k ≠ h.length - 1 := by omega
        have a3 : k ≠ 0 := by omega
        simp only [if_neg a1, if_neg hpk, if_neg a2, if_neg a3]
        exact ho k hk0 (by omega)
      · intro k _ _ _ h0; omega

theorem Fix_spec (h : MetricSetsHeap) (i : Nat) (hne : NE h) (hi : i < h.length) :
    ∃ h1, heap.Fix MetricSetsHeap.iface h i = .ok h1 ∧ h1.Perm h ∧
      (i = 0 → DownInv h 0 h.length → HeapOrd h1 h1.length) := by
  obtain ⟨h1, b, e1, p1, _, o1⟩ := down_spec h i h.length hne (le_refl _)
  unfold heap.Fix
  simp only [MetricSetsHeap.iface, MetricSetsHeap.Len] at e1 ⊢
  rw [e1]
  cases b with
  | true =>
    refine ⟨h1, rfl, p1, ?_⟩
    intro hi0 hinv
    subst hi0
    rw [p1.length_eq]; exact o1 hinv
  | false =>
    obtain ⟨h2, e2, p2, o2⟩ := up_spec (h1.length + 1) h1 i (hne.of_perm p1)
      (by rw [p1.length_eq]; exact hi) (by rw [p1.length_eq]; omega)
    simp only [MetricSetsHeap.iface] at e2
    refine ⟨h2, e2, p2.trans p1, ?_⟩
    intro hi0 hinv
    subst hi0
    rw [p2.length_eq]
    apply o2
    constructor
    · intro k hk0 hkn _
      rw [p1.length_eq] at hkn
      exact o1 hinv k hk0 hkn
    · intro k _ _ _ h0; omega

theorem AllSorted.sorted_of_perm {h h1 : List (List Nat)} (hp : h1.Perm h) (hs : AllSorted h) :
    AllSorted h1 := fun l hl => hs l (hp.subset hl)

theorem totalLen_perm {h h1 : List (List Nat)} (hp : h1.Perm h) : totalLen h1 = totalLen h := by
  unfold totalLen
  exact (hp.map List.length).sum_eq

theorem totalLen_cons (l : List Nat) (h : List (List Nat)) :
    totalLen (l :: h) = l.length + totalLen h := by
  simp [totalLen]

theorem root_min {h : List (List Nat)} {n : Nat} (ho : HeapOrd h n) :
    ∀ k, k < n → key h 0 ≤ key h k := by
  intro k
  induction k using Nat.strong_induction_on with
  | _ k ih =>
    intro hk
    by_cases hk0 : k = 0
    · subst hk0; exact le_refl _
    · have h1 := ho k (by omega) hk
      have h2 := ih ((k - 1) / 2) (by omega) (by omega)
      omega

theorem emit_mem (set : List Nat) (m x : Nat) : x ∈ emit set m ↔ x ∈ set ∨ x = m := by
  unfold emit
  split
  · simp
  · rename_i hc
    simp only [not_or, not_not] at hc
    constructor
    · intro hx; exact Or.inl hx
    · rintro (hx | hx)
      · exact hx
      · subst hx
        exact List.mem_of_mem_getLast? hc.2

theorem emit_chain (set : List Nat) (m : Nat) (hc : set.Chain' (· ≠ ·)) :
    (emit set m).Chain' (· ≠ ·) := by
  unfold emit
  split
  · rename_i hcond
    rw [List.chain'_append]
    refine ⟨hc, List.chain'_singleton _, ?_⟩
    intro x hx y hy
    simp only [List.head?_cons, Option.mem_def, Option.some.injEq] at hy
    subst hy
    rcases hcond with hcond | hcond
    · have : set = [] := List.length_eq_zero.mp hcond
      subst this; simp at hx
    · intro e; subst e; exact hcond hx
  · exact hc

theorem emit_sorted (set : List Nat) (m : Nat) (hs : set.Sorted (· < ·))
    (hb : ∀ x ∈ set, x ≤ m) : (emit set m).Sorted (· < ·) := by
  unfold emit
  split
  · rename_i hcond
    unfold List.Sorted
    rw [List.pairwise_append]
    refine ⟨hs, List.pairwise_singleton _ _, ?_⟩
    intro a ha b hb'
    simp only [List.mem_singleton] at hb'
    subst hb'
    rcases List.eq_nil_or_concat set with e | ⟨init, last, e⟩
    · subst e; simp at ha
    · subst e
      rw [List.concat_eq_append] at hs ha hb hcond
      have hlast : last ≠ b := by
        rcases hcond with hcond | hcond
        · simp at hcond
        · simpa using hcond
      have hl : last < b := lt_of_le_of_ne (hb last (by simp)) hlast
      unfold List.Sorted at hs
      rw [List.pairwise_append] at hs
      rcases List.mem_append.mp ha with ha | ha
      · exact lt_trans (hs.2.2 a ha last (by simp)) hl
      · simp only [List.mem_singleton] at ha
        subst ha; exact hl
  · exact hs

theorem key_le_of_sorted {h : List (List Nat)} (hs : AllSorted h) {k : Nat} (hk : k < h.length) :
    ∀ y ∈ h[k], key h k ≤ y := by
  intro y hy
  have hsk := hs _ (List.getElem_mem hk)
  unfold key
  rw [List.getElem?_eq_getElem hk]
  cases hl : h[k] with
  | nil => rw [hl] at hy; simp at hy
  | cons a t =>
    rw [hl] at hy hsk
    simp only [Option.getD_some, List.headD_cons]
    rcases List.mem_cons.mp hy with e | e
    · omega
    · exact List.rel_of_sorted_cons hsk y e

theorem root_le_all {h : List (List Nat)} (ho : HeapOrd h h.length) (hs : AllSorted h) :
    ∀ l ∈ h, ∀ y ∈ l, key h 0 ≤ y := by
  intro l hl y hy
  obtain ⟨k, hk, e⟩ := List.getElem_of_mem hl
  subst e
  exact le_trans (root_min ho k hk) (key_le_of_sorted hs hk y hy)

theorem mem_remaining {tl : List Nat} {rest : List (List Nat)} {l : List Nat} :
    l ∈ remaining tl rest ↔ (l = tl ∧ tl ≠ []) ∨ l ∈ rest := by
  unfold remaining
  split
  · rename_i h; simp [h]
  · rename_i h; simp [h]

theorem totalLen_remaining (tl : List Nat) (rest : List (List Nat)) :
    totalLen (remaining tl rest) = tl.length + totalLen rest := by
  unfold remaining
  split
  · rename_i h; simp [h]
  · exact totalLen_cons _ _

theorem key_zero_cons (m : Nat) (tl : List Nat) (rest : List (List Nat)) :
    key ((m :: tl) :: rest) 0 = m := by
  simp [key]

theorem key_succ_cons (a : List Nat) (rest : List (List Nat)) (k : Nat) :
    key (a :: rest) (k + 1) = key rest k := by
  simp [key]

theorem UnionMetrics.union_loop_spec (fuel : Nat) : ∀ (h : MetricSetsHeap) (set : List Metric),
    NE h → totalLen h < fuel →
    ∃ r, UnionMetrics.loop fuel h set = .ok r ∧
      (set.Chain' (· ≠ ·) → r.Chain' (· ≠ ·)) ∧
      (HeapOrd h h.length → AllSorted h → set.Sorted (· < ·) → Below set h →
        r.Sorted (· < ·) ∧ ∀ x, x ∈ r ↔ x ∈ set ∨ ∃ l ∈ h, x ∈ l) := by
  induction fuel with
  | zero => intro h set _ hf; omega
  | succ fuel ih =>
    intro h set hne hf
    unfold UnionMetrics.loop
    cases h with
    | nil =>
      refine ⟨set, by simp [MetricSetsHeap.Len], fun hc => hc, ?_⟩
      intro _ _ hs _
      exact ⟨hs, by simp⟩
    | cons cur rest =>
      cases cur with
      | nil => exact absurd rfl (hne [] (by simp))
      | cons metric tl =>
        have common : ∀ h1 : MetricSetsHeap, h1.Perm (remaining tl rest) →
            (HeapOrd ((metric :: tl) :: rest) (rest.length + 1) → HeapOrd h1 h1.length) →
            ∃ r, UnionMetrics.loop fuel h1 (emit set metric) = .ok r ∧
              (set.Chain' (· ≠ ·) → r.Chain' (· ≠ ·)) ∧
              (HeapOrd ((metric :: tl) :: rest) (rest.length + 1) →
                AllSorted ((metric :: tl) :: rest) → set.Sorted (· < ·) →
                Below set ((metric :: tl) :: rest) →
                r.Sorted (· < ·) ∧
                  ∀ x, x ∈ r ↔ x ∈ set ∨ ∃ l ∈ (metric :: tl) :: rest, x ∈ l) := by
          intro h1 hp ho1
          have hsub : ∀ l ∈ h1, (l = tl ∧ tl ≠ []) ∨ l ∈ rest :=
            fun l hl => mem_remaining.mp (hp.subset hl)
          have hne1 : NE h1 := by
            intro l hl
            rcases hsub l hl with ⟨e, hn⟩ | hr
            · rw [e]; exact hn
            · exact hne l (List.mem_cons_of_mem _ hr)
          have hlen1 : totalLen h1 < fuel := by
            rw [totalLen_perm hp, totalLen_remaining]
            rw [totalLen_cons] at hf
            simp only [List.length_cons] at hf
            omega
          obtain ⟨r, er, cr, sr⟩ := ih h1 (emit set metric) hne1 hlen1
          refine ⟨r, er, fun hc => cr (emit_chain set metric hc), ?_⟩
          intro ho hs hset hb
          have hmin : ∀ l ∈ (metric :: tl) :: rest, ∀ y ∈ l, metric ≤ y := by
            have := root_le_all (h := (metric :: tl) :: rest) (by simpa using ho) hs
            rw [key_zero_cons] at this
            exact this
          have hs1 : AllSorted h1 := by
            intro l hl
            rcases hsub l hl with ⟨e, _⟩ | hr
            · rw [e]
              exact (hs (metric :: tl) (by simp)).tail
            · exact hs l (List.mem_cons_of_mem _ hr)
          have hset1 : (emit set metric).Sorted (· < ·) :=
            emit_sorted set metric hset (fun x hx => hb x hx (metric :: tl) (by simp) metric (by simp))
          have hin : ∀ l ∈ h1, ∀ y ∈ l, ∃ l2 ∈ (metric :: tl) :: rest, y ∈ l2 := by
            intro l hl y hy
            rcases hsub l hl with ⟨e, _⟩ | hr
            · exact ⟨metric :: tl, by simp, by rw [e] at hy; simp [hy]⟩
            · exact ⟨l, List.mem_cons_of_mem _ hr, hy⟩
          have hb1 : Below (emit set metric) h1 := by
            intro x hx l hl y hy
            obtain ⟨l2, hl2, hy2⟩ := hin l hl y hy
            rcases (emit_mem set metric x).mp hx with hx | hx
            · exact hb x hx l2 hl2 y hy2
            · rw [hx]; exact hmin l2 hl2 y hy2
          obtain ⟨s1, m1⟩ := sr (ho1 ho) hs1 hset1 hb1
          refine ⟨s1, ?_⟩
          intro x
          rw [m1 x, emit_mem]
          constructor
          · rintro ((hx | hx) | ⟨l, hl, hx⟩)
            · exact Or.inl hx
            · exact Or.inr ⟨metric :: tl, by simp, by simp [hx]⟩
            · exact Or.inr (hin l hl x hx)
          · rintro (hx | ⟨l, hl, hx⟩)
            · exact Or.inl (Or.inl hx)
            · rcases List.mem_cons.mp hl with e | hr
              · subst e
                rcases List.mem_cons.mp hx with e | ht
                · exact Or.inl (Or.inr e)
                · refine Or.inr ⟨tl, hp.symm.subset (mem_remaining.mpr (Or.inl ⟨rfl, ?_⟩)), ht⟩
                  intro e; subst e; simp at ht
              · exact Or.inr ⟨l, hp.symm.subset (mem_remaining.mpr (Or.inr hr)), hx⟩
        simp only [MetricSetsHeap.Len, List.length_cons, Nat.zero_lt_succ, if_true,
          List.getElem?_cons_zero]
        by_cases htl : tl = []
        · subst htl
          obtain ⟨h1, x, e1, hx, p1, o1⟩ := Pop_spec ([metric] :: rest) hne (by simp)
          simp only [List.getElem?_cons_zero, Option.some.injEq] at hx
          subst hx
          obtain ⟨r, er, hr⟩ := common h1 (by simpa [remaining] using p1.cons_inv)
            (by simpa using o1)
          refine ⟨r, ?_, hr⟩
          simp only [List.length_nil, Nat.zero_add, if_true, e1]
          exact er
        · have hne2 : NE (tl :: rest) := by
            intro l hl
            rcases List.mem_cons.mp hl with e | hr
            · rw [e]; exact htl
            · exact hne l (List.mem_cons_of_mem _ hr)
          obtain ⟨h1, e1, p1, o1⟩ := Fix_spec (tl :: rest) 0 hne2 (by simp)
          obtain ⟨r, er, hr⟩ := common h1 (by simpa [remaining, htl] using p1) (by
            intro ho
            apply o1 rfl
            constructor
            · intro k hk0 hkn hpk
              obtain ⟨k', rfl⟩ : ∃ k', k = k' + 1 := ⟨k - 1, by omega⟩
              obtain ⟨p', hp'⟩ : ∃ p', (k' + 1 - 1) / 2 = p' + 1 := ⟨(k' + 1 - 1) / 2 - 1, by omega⟩
              have := ho (k' + 1) hk0 (by simpa using hkn)
              rw [hp'] at this ⊢
              rw [key_succ_cons] at this ⊢
              rw [key_succ_cons] at this ⊢
              exact this
            · intro k _ _ _ h0; omega)
          refine ⟨r, ?_, hr⟩
          have hlen : ¬ (tl.length + 1 = 1) := by
            intro e
            exact htl (List.length_eq_zero.mp (by omega))
          simp only [hlen, if_false, List.set_cons_zero, e1]
          exact er

theorem NE_nil : NE [] := fun _ hl => by simp at hl

theorem HeapOrd_nil : HeapOrd [] (List.length ([] : List (List Nat))) :=
  fun k _ hk => by simp at hk

theorem UnionMetrics.union_pushAll_spec : ∀ (sets : List (List Metric)) (h : MetricSetsHeap), NE h →
    ∃ h1, UnionMetrics.pushAll sets h = .ok h1 ∧
      h1.Perm (h ++ sets.filter (fun s => decide (s ≠ []))) ∧
      (HeapOrd h h.length → HeapOrd h1 h1.length) := by
  intro sets
  induction sets with
  | nil => intro h _; exact ⟨h, rfl, by simp, fun ho => ho⟩
  | cons list rest ih =>
    intro h hne
    unfold UnionMetrics.pushAll
    by_cases hl : list = []
    · subst hl
      obtain ⟨h1, e1, p1, o1⟩ := ih h hne
      exact ⟨h1, by simpa using e1, by simpa using p1, o1⟩
    · have hpos : list.length > 0 := List.length_pos.mpr hl
      obtain ⟨h2, e2, p2, o2⟩ := Push_spec h list hne hl
      obtain ⟨h1, e1, p1, o1⟩ := ih h2 (NE.of_perm p2 (by
        intro l hl2
        rcases List.mem_cons.mp hl2 with e | hr
        · rw [e]; exact hl
        · exact hne l hr))
      refine ⟨h1, by simp only [hpos, if_true, e2]; exact e1, ?_, fun ho => o1 (o2 ho)⟩
      refine p1.trans ?_
      simp only [List.filter_cons, hl, ne_eq, not_false_eq_true, decide_True, if_true]
      refine (List.Perm.append_right _ p2).trans ?_
      simp only [List.cons_append]
      exact List.perm_middle.symm

theorem totalLen_filter (sets : List (List Nat)) :
    totalLen (sets.filter (fun s => decide (s ≠ []))) = totalLen sets := by
  induction sets with
  | nil => rfl
  | cons a rest ih =>
    by_cases ha : a = []
    · subst ha; simpa [totalLen] using ih
    · simp only [List.filter_cons, ha, ne_eq, not_false_eq_true, decide_True, if_true,
        totalLen_cons, ih]

theorem UnionMetrics_spec (sets : List (List Metric)) :
    ∃ r, UnionMetrics sets = .ok r ∧ r.Chain' (· ≠ ·) ∧
      (AllSorted sets → r.Sorted (· < ·) ∧ ∀ x, x ∈ r ↔ ∃ s ∈ sets, x ∈ s) := by
  obtain ⟨h, eh, ph, oh⟩ := UnionMetrics.union_pushAll_spec sets [] NE_nil
  simp only [List.nil_append] at ph
  have hne : NE h := by
    intro l hl
    have := ph.subset hl
    simp only [ne_eq, List.mem_filter, decide_eq_true_eq] at this
    exact this.2
  have hlen : totalLen h < totalLen sets + 1 := by
    rw [totalLen_perm ph, totalLen_filter]; omega
  obtain ⟨r, er, cr, sr⟩ := UnionMetrics.union_loop_spec (totalLen sets + 1) h [] hne hlen
  refine ⟨r, ?_, cr List.chain'_nil, ?_⟩
  · unfold UnionMetrics
    have : heap.Init MetricSetsHeap.iface [] = .ok [] := rfl
    simp only [this, eh]
    exact er
  · intro hs
    have hs1 : AllSorted h := by
      intro l hl
      exact hs l (List.mem_of_mem_filter (ph.subset hl))
    obtain ⟨s1, m1⟩ := sr (oh HeapOrd_nil) hs1 List.sorted_nil (fun x hx => by simp at hx)
    refine ⟨s1, ?_⟩
    intro x
    rw [m1 x]
    simp only [List.not_mem_nil, false_or]
    constructor
    · rintro ⟨l, hl, hx⟩
      exact ⟨l, List.mem_of_mem_filter (ph.subset hl), hx⟩
    · rintro ⟨l, hl, hx⟩
      refine ⟨l, ph.symm.subset (List.mem_filter.mpr ⟨hl, ?_⟩), hx⟩
      simp only [ne_eq, decide_eq_true_eq]
      intro e; subst e; simp at hx

theorem UnionMetrics.pushAll_filter : ∀ (sets : List (List Metric)) (h : MetricSetsHeap),
    UnionMetrics.pushAll (sets.filter (fun s => decide (s ≠ []))) h
      = UnionMetrics.pushAll sets h := by
  intro sets
  induction sets with
  | nil => intro h; rfl
  | cons list rest ih =>
    intro h
    by_cases hl : list = []
    · subst hl
      simp only [ne_eq, not_true_eq_false, decide_False, Bool.false_eq_true, not_false_eq_true,
        List.filter_cons_of_neg]
      rw [ih h]
      simp [UnionMetrics.pushAll]
    · have hpos : list.length > 0 := List.length_pos.mpr hl
      simp only [List.filter_cons, hl, ne_eq, not_false_eq_true, decide_True, if_true]
      unfold UnionMetrics.pushAll
      simp only [hpos, if_true]
      cases heap.Push MetricSetsHeap.iface h list with
      | error e => rfl
      | ok h1 => exact ih h1

theorem UnionMetrics_filter (sets : List (List Metric)) :
    UnionMetrics (sets.filter (fun s => decide (s ≠ []))) = UnionMetrics sets := by
  unfold UnionMetrics
  rw [totalLen_filter]
  cases heap.Init MetricSetsHeap.iface [] with
  | error e => rfl
  | ok h0 =>
    simp only [UnionMetrics.pushAll_filter]

theorem sorted_lt_ext {a b : List Nat} (ha : a.Sorted (· < ·)) (hb : b.Sorted (· < ·))
    (h : ∀ x, x ∈ a ↔ x ∈ b) : a = b := by
  apply List.eq_of_perm_of_sorted (r := (· < ·)) _ ha hb
  exact (List.perm_ext_iff_of_nodup ha.nodup hb.nodup).mpr h

/-! ## `IntersectMetrics` -/

theorem totalLen_set {x : Nat} {tl : List Nat} : ∀ {h : List (List Nat)} {i : Nat},
    h[i]? = some (x :: tl) → totalLen (h.set i tl) + 1 = totalLen h := by
  intro h
  induction h with
  | nil => intro i hi; simp at hi
  | cons a rest ih =>
    intro i hi
    cases i with
    | zero =>
      simp only [List.getElem?_cons_zero, Option.some.injEq] at hi
      subst hi
      simp only [List.set_cons_zero, totalLen_cons, List.length_cons]
      omega
    | succ i =>
      simp only [List.getElem?_cons_succ] at hi
      simp only [List.set_cons_succ, totalLen_cons]
      have := ih hi
      omega

theorem mem_set_suffix {x : Nat} {tl : List Nat} {h : List (List Nat)} {i : Nat}
    (hi : h[i]? = some (x :: tl)) : ∀ l ∈ h.set i tl, ∃ l2 ∈ h, l <:+ l2 := by
  intro l hl
  rcases List.mem_or_eq_of_mem_set hl with hm | he
  · exact ⟨l, hm, List.suffix_refl _⟩
  · subst he
    exact ⟨x :: l, List.getElem?_mem hi, List.suffix_cons _ _⟩

theorem set_covers {x : Nat} {tl : List Nat} {h : List (List Nat)} {i : Nat}
    (hi : h[i]? = some (x :: tl)) : ∀ l ∈ h, ∃ l2 ∈ h.set i tl, l2 <:+ l := by
  intro l hl
  obtain ⟨j, hj, e⟩ := List.getElem_of_mem hl
  have hilt : i < h.length := by
    by_contra hc
    rw [List.getElem?_eq_none (by omega)] at hi
    exact Option.noConfusion hi
  by_cases hji : j = i
  · subst hji
    rw [List.getElem?_eq_getElem hj, Option.some.injEq] at hi
    refine ⟨tl, List.mem_iff_getElem.mpr ⟨j, by simpa using hj, by simp⟩, ?_⟩
    rw [← e, hi]
    exact List.suffix_cons _ _
  · refine ⟨l, List.mem_iff_getElem.mpr ⟨j, by simpa using hj, ?_⟩, List.suffix_refl _⟩
    rw [List.getElem_set_ne (Ne.symm hji)]
    exact e

theorem Advanced.length_eq {h h2 : List (List Nat)} (ha : Advanced h h2) :
    h2.length = h.length := by
  induction ha with
  | refl h => rfl
  | step _ _ hp _ ih => rw [ih, hp.length_eq, List.length_set]

theorem Advanced.ne {h h2 : List (List Nat)} (ha : Advanced h h2) (hne : NE h) : NE h2 := by
  induction ha with
  | refl h => exact hne
  | step hi htl hp _ ih =>
    apply ih
    intro l hl
    rcases List.mem_or_eq_of_mem_set (hp.subset hl) with hm | he
    · exact hne l hm
    · rw [he]; exact htl

theorem Advanced.totalLen_le {h h2 : List (List Nat)} (ha : Advanced h h2) :
    totalLen h2 ≤ totalLen h := by
  induction ha with
  | refl h => exact le_refl _
  | step hi _ hp _ ih =>
    have := totalLen_set hi
    rw [← totalLen_perm hp] at this
    omega

theorem Advanced.suffix_of {h h2 : List (List Nat)} (ha : Advanced h h2) :
    ∀ l ∈ h2, ∃ l2 ∈ h, l <:+ l2 := by
  induction ha with
  | refl h => intro l hl; exact ⟨l, hl, List.suffix_refl _⟩
  | step hi _ hp _ ih =>
    intro l hl
    obtain ⟨l1, hl1, s1⟩ := ih l hl
    obtain ⟨l2, hl2, s2⟩ := mem_set_suffix hi l1 (hp.subset hl1)
    exact ⟨l2, hl2, s1.trans s2⟩

theorem Advanced.covers {h h2 : List (List Nat)} (ha : Advanced h h2) :
    ∀ l ∈ h, ∃ l2 ∈ h2, l2 <:+ l := by
  induction ha with
  | refl h => intro l hl; exact ⟨l, hl, List.suffix_refl _⟩
  | step hi _ hp _ ih =>
    intro l hl
    obtain ⟨l1, hl1, s1⟩ := set_covers hi l hl
    obtain ⟨l2, hl2, s2⟩ := ih l1 (hp.symm.subset hl1)
    exact ⟨l2, hl2, s2.trans s1⟩

theorem Advanced.trans {h h1 h2 : List (List Nat)} (ha : Advanced h h1) (hb : Advanced h1 h2) :
    Advanced h h2 := by
  induction ha with
  | refl h => exact hb
  | step hi htl hp _ ih => exact Advanced.step hi htl hp (ih hb)

theorem Advanced.allSorted {h h2 : List (List Nat)} (ha : Advanced h h2) (hs : AllSorted h) :
    AllSorted h2 := by
  intro l hl
  obtain ⟨l2, hl2, s⟩ := ha.suffix_of l hl
  exact List.Pairwise.sublist s.sublist (hs l2 hl2)

theorem Advanced.keeps_below {h h2 : List (List Nat)} (ha : Advanced h h2) {set : List Nat}
    (hb : Below set h) : Below set h2 := by
  intro x hx l hl y hy
  obtain ⟨l2, hl2, s⟩ := ha.suffix_of l hl
  exact hb x hx l2 hl2 y (s.subset hy)

theorem IntersectMetrics.scan_spec (m : Metric) : ∀ (h : List (List Metric)), NE h →
    IntersectMetrics.scan m h =
      .ok (h.map (fun l => decide (l.headD 0 ≤ m)), h.countP (fun l => decide (l.headD 0 = m))) := by
  intro h
  induction h with
  | nil => intro _; rfl
  | cons c rest ih =>
    intro hne
    have hr : NE rest := fun l hl => hne l (List.mem_cons_of_mem _ hl)
    cases c with
    | nil => exact absurd rfl (hne [] (by simp))
    | cons a t =>
      unfold IntersectMetrics.scan
      simp only [ih hr, List.map_cons, List.headD_cons, List.countP_cons]
      by_cases e : a = m <;> simp [e]

theorem IntersectMetrics.advance_spec : ∀ (fixups : List Bool) (i : Nat) (h : MetricSetsHeap),
    NE h → i + fixups.length ≤ h.length →
    ∃ r, IntersectMetrics.advance fixups i h = .ok r ∧
      ∀ h1, r = some h1 → Advanced h h1 ∧
        (fixups.head? = some true → totalLen h1 < totalLen h) := by
  intro fixups
  induction fixups with
  | nil =>
    intro i h _ _
    refine ⟨some h, rfl, ?_⟩
    intro h1 e
    simp only [Option.some.injEq] at e
    subst e
    exact ⟨Advanced.refl _, by simp⟩
  | cons fix rest ih =>
    intro i h hne hlen
    simp only [List.length_cons] at hlen
    have hi : i < h.length := by omega
    unfold IntersectMetrics.advance
    cases fix with
    | false =>
      obtain ⟨r, er, hr⟩ := ih (i + 1) h hne (by omega)
      refine ⟨r, by simpa using er, ?_⟩
      intro h1 e
      exact ⟨(hr h1 e).1, by simp⟩
    | true =>
      simp only [if_true, List.getElem?_eq_getElem hi]
      cases hl : h[i] with
      | nil => exact absurd hl (hne _ (List.getElem_mem hi))
      | cons x tl =>
        by_cases htl : tl = []
        · subst htl
          refine ⟨none, by simp, ?_⟩
          intro h1 e; exact Option.noConfusion e
        · have hlen1 : ¬ ((x :: tl).length = 1) := by
            intro e
            exact htl (List.length_eq_zero.mp (by simpa using e))
          have hget : h[i]? = some (x :: tl) := by
            rw [List.getElem?_eq_getElem hi, hl]
          have hne1 : NE (h.set i tl) := by
            intro l hl1
            rcases List.mem_or_eq_of_mem_set hl1 with hm | he
            · exact hne l hm
            · rw [he]; exact htl
          obtain ⟨h2, e2, p2, _⟩ := Fix_spec (h.set i tl) i hne1 (by simpa using hi)
          obtain ⟨r, er, hr⟩ := ih (i + 1) h2 (hne1.of_perm p2) (by
            rw [p2.length_eq, List.length_set]; omega)
          refine ⟨r, by simp only [hlen1, if_false, e2]; exact er, ?_⟩
          intro h1 e
          obtain ⟨a1, _⟩ := hr h1 e
          refine ⟨Advanced.step hget htl p2 a1, ?_⟩
          intro _
          have t1 := totalLen_set hget
          have t2 := totalLen_perm p2
          have t3 := a1.totalLen_le
          omega

theorem head_le_of_sorted {l : List Nat} (hs : l.Sorted (· ≤ ·)) : ∀ y ∈ l, l.headD 0 ≤ y := by
  cases l with
  | nil => intro y hy; simp at hy
  | cons a t =>
    intro y hy
    simp only [List.headD_cons]
    rcases List.mem_cons.mp hy with e | e
    · omega
    · exact List.rel_of_sorted_cons hs y e

theorem headD_mem {l : List Nat} (hl : l ≠ []) : l.headD 0 ∈ l := by
  cases l with
  | nil => exact absurd rfl hl
  | cons a t => simp

theorem IntersectMetrics.intersect_loop_spec (n : Nat) (fuel : Nat) :
    ∀ (h : MetricSetsHeap) (set : List Metric),
    NE h → h.length = n → 0 < n → totalLen h < fuel →
    ∃ r, IntersectMetrics.loop n fuel h set = .ok r ∧
      (set.Chain' (· ≠ ·) → r.Chain' (· ≠ ·)) ∧
      (AllSorted h → set.Sorted (· < ·) → Below set h → r.Sorted (· < ·)) ∧
      (∀ x ∈ r, x ∈ set ∨ ∀ l ∈ h, x ∈ l) := by
  induction fuel with
  | zero => intro h set _ _ _ hf; omega
  | succ fuel ih =>
    intro h set hne hlen hn hf
    unfold IntersectMetrics.loop
    cases h with
    | nil => simp at hlen; omega
    | cons cur rest =>
      cases cur with
      | nil => exact absurd rfl (hne [] (by simp))
      | cons m t =>
        simp only [List.getElem?_cons_zero, IntersectMetrics.scan_spec m _ hne]
        generalize hset1 : (if List.countP (fun l => decide (l.headD 0 = m)) ((m :: t) :: rest) = n
          then emit set m else set) = set1
        have hc1 : set.Chain' (· ≠ ·) → set1.Chain' (· ≠ ·) := by
          intro hc; rw [← hset1]; split
          · exact emit_chain set m hc
          · exact hc
        have hm1 : ∀ x ∈ set1, x ∈ set ∨ ∀ l ∈ (m :: t) :: rest, x ∈ l := by
          intro x hx
          rw [← hset1] at hx
          split at hx
          · rename_i hp
            rcases (emit_mem set m x).mp hx with hx | hx
            · exact Or.inl hx
            · right
              rw [← hlen, List.countP_eq_length] at hp
              intro l hl
              have := hp l hl
              simp only [decide_eq_true_eq] at this
              rw [hx, ← this]
              exact headD_mem (hne l hl)
          · exact Or.inl hx
        have hs1 : AllSorted ((m :: t) :: rest) → set.Sorted (· < ·) →
            Below set ((m :: t) :: rest) →
            set1.Sorted (· < ·) ∧ Below set1 ((m :: t) :: rest) := by
          intro hs hset hb
          rw [← hset1]
          split
          · rename_i hp
            rw [← hlen, List.countP_eq_length] at hp
            refine ⟨emit_sorted set m hset
              (fun x hx => hb x hx (m :: t) (by simp) m (by simp)), ?_⟩
            intro x hx l hl y hy
            rcases (emit_mem set m x).mp hx with hx | hx
            · exact hb x hx l hl y hy
            · have := hp l hl
              simp only [decide_eq_true_eq] at this
              rw [hx, ← this]
              exact head_le_of_sorted (hs l hl) y hy
          · exact ⟨hset, hb⟩
        obtain ⟨r, er, hr⟩ := IntersectMetrics.advance_spec
          (List.map (fun l => decide (l.headD 0 ≤ m)) ((m :: t) :: rest)) 0 ((m :: t) :: rest)
          hne (by simp)
        rw [er]
        cases r with
        | none =>
          exact ⟨set1, rfl, hc1, fun hs hset hb => (hs1 hs hset hb).1, hm1⟩
        | some h1 =>
          obtain ⟨ha, hlt⟩ := hr h1 rfl
          have hlt1 := hlt (by simp)
          obtain ⟨r2, er2, c2, s2, m2⟩ := ih h1 set1 (ha.ne hne) (by rw [ha.length_eq]; exact hlen)
            hn (by omega)
          refine ⟨r2, er2, fun hc => c2 (hc1 hc), ?_, ?_⟩
          · intro hs hset hb
            obtain ⟨a1, a2⟩ := hs1 hs hset hb
            exact s2 (ha.allSorted hs) a1 (ha.keeps_below a2)
          · intro x hx
            rcases m2 x hx with h3 | h3
            · exact hm1 x h3
            · right
              intro l hl
              obtain ⟨l2, hl2, sfx⟩ := ha.covers l hl
              exact sfx.subset (h3 l2 hl2)

theorem IntersectMetrics.intersect_pushAll_spec : ∀ (sets : List (List Metric)) (h : MetricSetsHeap),
    NE h →
    ∃ r, IntersectMetrics.pushAll sets h = .ok r ∧
      ((∃ s ∈ sets, s = []) → r = none) ∧
      ((∀ s ∈ sets, s ≠ []) → ∃ h1, r = some h1 ∧ h1.Perm (h ++ sets)) := by
  intro sets
  induction sets with
  | nil =>
    intro h _
    exact ⟨some h, rfl, by simp, fun _ => ⟨h, rfl, by simp⟩⟩
  | cons list rest ih =>
    intro h hne
    unfold IntersectMetrics.pushAll
    by_cases hl : list = []
    · subst hl
      exact ⟨none, by simp, fun _ => rfl, fun hall => absurd rfl (hall [] (by simp))⟩
    · have hlen : ¬ (list.length = 0) := fun e => hl (List.length_eq_zero.mp e)
      obtain ⟨h2, e2, p2, _⟩ := Push_spec h list hne hl
      obtain ⟨r, er, hr1, hr2⟩ := ih h2 (NE.of_perm p2 (by
        intro l hl2
        rcases List.mem_cons.mp hl2 with e | hr
        · rw [e]; exact hl
        · exact hne l hr))
      refine ⟨r, by simp only [hlen, if_false, e2]; exact er, ?_, ?_⟩
      · rintro ⟨s, hs, e⟩
        rcases List.mem_cons.mp hs with e1 | e1
        · exact absurd (e1 ▸ e) hl
        · exact hr1 ⟨s, e1, e⟩
      · intro hall
        obtain ⟨h1, e1, p1⟩ := hr2 (fun s hs => hall s (List.mem_cons_of_mem _ hs))
        refine ⟨h1, e1, p1.trans ?_⟩
        refine (List.Perm.append_right _ p2).trans ?_
        simp only [List.cons_append]
        exact List.perm_middle.symm

theorem IntersectMetrics_spec (sets : List (List Metric)) :
    ∃ r, IntersectMetrics sets = .ok r ∧ r.Chain' (· ≠ ·) ∧
      (AllSorted sets → r.Sorted (· < ·)) ∧
      (∀ x ∈ r, ∀ s ∈ sets, x ∈ s) ∧
      (sets = [] ∨ (∃ s ∈ sets, s = []) → r = []) := by
  unfold IntersectMetrics
  by_cases h0 : sets.length = 0
  · simp only [h0, if_true]
    have : sets = [] := List.length_eq_zero.mp h0
    subst this
    exact ⟨[], rfl, List.chain'_nil, fun _ => List.sorted_nil, by simp, fun _ => rfl⟩
  · have hinit : heap.Init MetricSetsHeap.iface [] = .ok [] := rfl
    simp only [h0, if_false, hinit]
    obtain ⟨r0, e0, hnone, hsome⟩ := IntersectMetrics.intersect_pushAll_spec sets [] NE_nil
    rw [e0]
    by_cases hex : ∃ s ∈ sets, s = []
    · rw [hnone hex]
      exact ⟨[], rfl, List.chain'_nil, fun _ => List.sorted_nil, by simp, fun _ => rfl⟩
    · have hall : ∀ s ∈ sets, s ≠ [] := fun s hs e => hex ⟨s, hs, e⟩
      obtain ⟨h, eh, ph⟩ := hsome hall
      simp only [List.nil_append] at ph
      rw [eh]
      obtain ⟨r, er, cr, sr, mr⟩ := IntersectMetrics.intersect_loop_spec sets.length (totalLen sets + 1) h []
        (NE.of_perm ph hall) ph.length_eq (by omega) (by rw [totalLen_perm ph]; omega)
      refine ⟨r, er, cr List.chain'_nil, ?_, ?_, ?_⟩
      · intro hs
        exact sr (hs.sorted_of_perm ph) List.sorted_nil (fun x hx => by simp at hx)
      · intro x hx s hs
        rcases mr x hx with h1 | h1
        · simp at h1
        · exact h1 s (ph.symm.subset hs)
      · rintro (e | e)
        · subst e; simp at h0
        · exact absurd e hex

/-! ## The Tag copies -/

theorem TagSetsHeap.iface_eq : TagSetsHeap.iface = MetricSetsHeap.iface := rfl

theorem UnionTags.union_pushAll_eq : ∀ (sets : List (List Tag)) (h : TagSetsHeap),
    UnionTags.pushAll sets h = UnionMetrics.pushAll sets h := by
  intro sets
  induction sets with
  | nil => intro h; rfl
  | cons list rest ih =>
    intro h
    unfold UnionTags.pushAll UnionMetrics.pushAll
    simp only [TagSetsHeap.iface_eq, ih]
    rfl

theorem UnionTags.union_loop_eq : ∀ (fuel : Nat) (h : TagSetsHeap) (set : List Tag),
    UnionTags.loop fuel h set = UnionMetrics.loop fuel h set := by
  intro fuel
  induction fuel with
  | zero => intro h set; rfl
  | succ fuel ih =>
    intro h set
    unfold UnionTags.loop UnionMetrics.loop
    simp only [TagSetsHeap.iface_eq, ih]
    rfl

theorem UnionTags_eq (sets : List (List Tag)) : UnionTags sets = UnionMetrics sets := by
  unfold UnionTags UnionMetrics
  simp only [TagSetsHeap.iface_eq, UnionTags.union_pushAll_eq, UnionTags.union_loop_eq]
  rfl

theorem IntersectTags.intersect_pushAll_eq : ∀ (sets : List (List Tag)) (h : TagSetsHeap),
    IntersectTags.pushAll sets h = IntersectMetrics.pushAll sets h := by
  intro sets
  induction sets with
  | nil => intro h; rfl
  | cons list rest ih =>
    intro h
    unfold IntersectTags.pushAll IntersectMetrics.pushAll
    simp only [TagSetsHeap.iface_eq, ih]
    rfl

theorem IntersectTags.scan_eq (m : Tag) : ∀ (h : List (List Tag)),
    IntersectTags.scan m h = IntersectMetrics.scan m h := by
  intro h
  induction h with
  | nil => rfl
  | cons c rest ih =>
    unfold IntersectTags.scan IntersectMetrics.scan
    simp only [ih]
    rfl

theorem IntersectTags.advance_eq : ∀ (fixups : List Bool) (i : Nat) (h : TagSetsHeap),
    IntersectTags.advance fixups i h = IntersectMetrics.advance fixups i h := by
  intro fixups
  induction fixups with
  | nil => intro i h; rfl
  | cons fix rest ih =>
    intro i h
    unfold IntersectTags.advance IntersectMetrics.advance
    simp only [TagSetsHeap.iface_eq, ih]
    rfl

theorem IntersectTags.intersect_loop_eq (n : Nat) : ∀ (fuel : Nat) (h : TagSetsHeap) (set : List Tag),
    IntersectTags.loop n fuel h set = IntersectMetrics.loop n fuel h set := by
  intro fuel
  induction fuel with
  | zero => intro h set; rfl
  | succ fuel ih =>
    intro h set
    unfold IntersectTags.loop IntersectMetrics.loop
    simp only [IntersectTags.scan_eq, IntersectTags.advance_eq, ih]
    rfl

theorem IntersectTags_eq (sets : List (List Tag)) :
    IntersectTags sets = IntersectMetrics sets := by
  unfold IntersectTags IntersectMetrics
  simp only [TagSetsHeap.iface_eq, IntersectTags.intersect_pushAll_eq, IntersectTags.intersect_loop_eq]
  rfl

/-! ## A single input sequence -/

theorem foldl_emit_mem (x : Nat) : ∀ (l set : List Nat),
    x ∈ l.foldl emit set ↔ x ∈ set ∨ x ∈ l := by
  intro l
  induction l with
  | nil => intro set; simp
  | cons a t ih =>
    intro set
    rw [List.foldl_cons, ih, emit_mem, List.mem_cons]
    constructor
    · rintro ((h | h) | h)
      · exact Or.inl h
      · exact Or.inr (Or.inl h)
      · exact Or.inr (Or.inr h)
    · rintro (h | h | h)
      · exact Or.inl (Or.inl h)
      · exact Or.inl (Or.inr h)
      · exact Or.inr h

theorem Fix_single (l : List Metric) : heap.Fix MetricSetsHeap.iface [l] 0 = .ok [l] := rfl

theorem Push_first (l : List Metric) : heap.Push MetricSetsHeap.iface [] l = .ok [l] := by
  simp [heap.Push, heap.up, MetricSetsHeap.iface, MetricSetsHeap.Push, MetricSetsHeap.Len]

theorem IntersectMetrics.loop_single : ∀ (l set : List Metric) (fuel : Nat), l ≠ [] →
    l.length ≤ fuel → IntersectMetrics.loop 1 fuel [l] set = .ok (l.foldl emit set) := by
  intro l
  induction l with
  | nil => intro set fuel h; exact absurd rfl h
  | cons a t ih =>
    intro set fuel _ hf
    cases fuel with
    | zero => simp at hf
    | succ fuel =>
      simp only [List.length_cons, Nat.add_le_add_iff_right] at hf
      unfold IntersectMetrics.loop
      simp only [List.getElem?_cons_zero, IntersectMetrics.scan, le_refl, decide_True,
        if_true, Nat.zero_add]
      cases t with
      | nil => simp [IntersectMetrics.advance]
      | cons b t2 =>
        have h1 := ih (emit set a) fuel (by simp) hf
        simp only [IntersectMetrics.advance, if_true, List.getElem?_cons_zero, List.length_cons,
          List.set_cons_zero, Fix_single]
        simpa using h1

theorem IntersectMetrics_single (A : List Metric) :
    IntersectMetrics [A] = .ok (A.foldl emit []) := by
  cases A with
  | nil => rfl
  | cons a t =>
    unfold IntersectMetrics
    have hinit : heap.Init MetricSetsHeap.iface [] = .ok [] := rfl
    simp only [List.length_singleton, Nat.one_ne_zero, if_false, hinit,
      IntersectMetrics.pushAll, List.length_cons, Nat.add_one_ne_zero, Push_first]
    exact IntersectMetrics.loop_single (a :: t) [] _ (by simp) (by simp [totalLen])

theorem dedup_sorted_lt {l : List Nat} (h : l.Sorted (· ≤ ·)) : l.dedup.Sorted (· < ·) :=
  List.Sorted.lt_of_le (List.Pairwise.sublist (List.dedup_sublist l) h) (List.nodup_dedup l)

theorem allSorted_pair {A B : List Nat} (hA : A.Sorted (· ≤ ·)) (hB : B.Sorted (· ≤ ·)) :
    AllSorted [A, B] := by
  intro s hs
  simp only [List.mem_cons, List.mem_singleton, List.not_mem_nil, or_false] at hs
  rcases hs with e | e <;> (rw [e]; assumption)

/-! ## The claims -/

/-- C1: for every collection of ascending-sorted sequences (duplicates allowed),
`UnionMetrics` returns the strictly ascending list whose elements are exactly the values
that occur in at least one input sequence, and so does `UnionTags`; on `[1,3,5]`, `[2,3,4]`
both return `[1,2,3,4,5]`. -/
theorem C1_union_sorted_dedup (sets : List (List Nat)) (hs : AllSorted sets) :
    (∃ r, UnionMetrics sets = .ok r ∧ r.Sorted (· < ·) ∧ ∀ x, x ∈ r ↔ ∃ s ∈ sets, x ∈ s) ∧
    (∃ r, UnionTags sets = .ok r ∧ r.Sorted (· < ·) ∧ ∀ x, x ∈ r ↔ ∃ s ∈ sets, x ∈ s) ∧
    UnionMetrics [[1, 3, 5], [2, 3, 4]] = .ok [1, 2, 3, 4, 5] ∧
    UnionTags [[1, 3, 5], [2, 3, 4]] = .ok [1, 2, 3, 4, 5] := by
  obtain ⟨r, er, _, hr⟩ := UnionMetrics_spec sets
  obtain ⟨sr, mr⟩ := hr hs
  exact ⟨⟨r, er, sr, mr⟩, ⟨r, by rw [UnionTags_eq]; exact er, sr, mr⟩, rfl, rfl⟩

/-- C1 at the concrete collection `[[1,1,4],[2,4,7],[]]`. -/
theorem C1_union_sorted_dedup_witness :
    AllSorted [[1, 1, 4], [2, 4, 7], []] ∧
    ((∃ r, UnionMetrics [[1, 1, 4], [2, 4, 7], []] = .ok r ∧ r.Sorted (· < ·) ∧
        ∀ x, x ∈ r ↔ ∃ s ∈ [[1, 1, 4], [2, 4, 7], []], x ∈ s) ∧
     (∃ r, UnionTags [[1, 1, 4], [2, 4, 7], []] = .ok r ∧ r.Sorted (· < ·) ∧
        ∀ x, x ∈ r ↔ ∃ s ∈ [[1, 1, 4], [2, 4, 7], []], x ∈ s) ∧
     UnionMetrics [[1, 3, 5], [2, 3, 4]] = .ok [1, 2, 3, 4, 5] ∧
     UnionTags [[1, 3, 5], [2, 3, 4]] = .ok [1, 2, 3, 4, 5]) :=
  ⟨by decide, C1_union_sorted_dedup [[1, 1, 4], [2, 4, 7], []] (by decide)⟩

/-- C2 at the failing input: on the sorted sequences `[1,2,3]` and `[1,2,3]`, `IntersectMetrics`
and `IntersectTags` return `[1,3]`, although `2` occurs in every input sequence. -/
theorem C2_intersect_drops_common_value :
    IntersectMetrics [[1, 2, 3], [1, 2, 3]] = .ok [1, 3] ∧
    IntersectTags [[1, 2, 3], [1, 2, 3]] = .ok [1, 3] ∧
    AllSorted [[1, 2, 3], [1, 2, 3]] ∧
    (∀ s ∈ [[1, 2, 3], [1, 2, 3]], 2 ∈ s) ∧ 2 ∉ [1, 3] :=
  ⟨rfl, rfl, by decide, by decide, by decide⟩

/-- C3: for every collection of ascending-sorted sequences, the outputs of `UnionMetrics`
and of `IntersectMetrics` are strictly ascending. -/
theorem C3_outputs_strictly_ascending (sets : List (List Nat)) (hs : AllSorted sets) :
    (∃ r, UnionMetrics sets = .ok r ∧ r.Sorted (· < ·)) ∧
    (∃ r, IntersectMetrics sets = .ok r ∧ r.Sorted (· < ·)) := by
  obtain ⟨r, er, _, hr⟩ := UnionMetrics_spec sets
  obtain ⟨r2, er2, _, sr2, _⟩ := IntersectMetrics_spec sets
  exact ⟨⟨r, er, (hr hs).1⟩, ⟨r2, er2, sr2 hs⟩⟩

/-- C3 at the concrete collection `[[1,2,2,3,4],[2,2,4,6],[2,3,4,5]]`. -/
theorem C3_outputs_strictly_ascending_witness :
    AllSorted [[1, 2, 2, 3, 4], [2, 2, 4, 6], [2, 3, 4, 5]] ∧
    ((∃ r, UnionMetrics [[1, 2, 2, 3, 4], [2, 2, 4, 6], [2, 3, 4, 5]] = .ok r ∧
        r.Sorted (· < ·)) ∧
     (∃ r, IntersectMetrics [[1, 2, 2, 3, 4], [2, 2, 4, 6], [2, 3, 4, 5]] = .ok r ∧
        r.Sorted (· < ·))) :=
  ⟨by decide, C3_outputs_strictly_ascending _ (by decide)⟩

/-- C4: for all inputs, sorted or not, `UnionMetrics` and `IntersectMetrics` return a list in
which no two consecutive elements are equal. -/
theorem C4_no_equal_neighbours (sets : List (List Nat)) :
    (∃ r, UnionMetrics sets = .ok r ∧ r.Chain' (· ≠ ·)) ∧
    (∃ r, IntersectMetrics sets = .ok r ∧ r.Chain' (· ≠ ·)) := by
  obtain ⟨r, er, cr, _⟩ := UnionMetrics_spec sets
  obtain ⟨r2, er2, cr2, _⟩ := IntersectMetrics_spec sets
  exact ⟨⟨r, er, cr⟩, ⟨r2, er2, cr2⟩⟩

/-- C5: `IntersectMetrics` returns the empty list when given no sequence at all, and whenever
one of the given sequences is empty, whatever the others contain. -/
theorem C5_intersect_empty (sets : List (List Nat)) (h : sets = [] ∨ [] ∈ sets) :
    IntersectMetrics sets = .ok [] := by
  obtain ⟨r, er, _, _, _, he⟩ := IntersectMetrics_spec sets
  have : r = [] := he (h.imp id (fun hm => ⟨[], hm, rfl⟩))
  rw [er, this]

/-- C5 at the spec's example `[1,2,3]`, `[]`. -/
theorem C5_intersect_empty_witness :
    (([[1, 2, 3], []] : List (List Nat)) = [] ∨ [] ∈ ([[1, 2, 3], []] : List (List Nat))) ∧
    IntersectMetrics [[1, 2, 3], []] = .ok [] :=
  ⟨by decide, C5_intersect_empty [[1, 2, 3], []] (by decide)⟩

/-- C6: for a single ascending-sorted sequence `A`, `IntersectMetrics [A]` is `A` with its
duplicates removed; in particular it contains the last element of `A`. -/
theorem C6_intersect_single (A : List Nat) (hA : A.Sorted (· ≤ ·)) :
    IntersectMetrics [A] = .ok A.dedup ∧ ∀ x ∈ A.getLast?, x ∈ A.dedup := by
  refine ⟨?_, fun x hx => List.mem_dedup.mpr (List.mem_of_mem_getLast? hx)⟩
  rw [IntersectMetrics_single]
  obtain ⟨r, er, _, sr, _⟩ := IntersectMetrics_spec [A]
  rw [IntersectMetrics_single] at er
  have hs : AllSorted [A] := by
    intro s hs
    simp only [List.mem_singleton] at hs
    rw [hs]; exact hA
  injection er with er
  have h1 : (List.foldl emit [] A).Sorted (· < ·) := by rw [er]; exact sr hs
  congr 1
  apply sorted_lt_ext h1 (dedup_sorted_lt hA)
  intro x
  rw [foldl_emit_mem, List.mem_dedup]
  simp

/-- C6 at the concrete sequence `[1,1,2,5,5]`. -/
theorem C6_intersect_single_witness :
    ([1, 1, 2, 5, 5] : List Nat).Sorted (· ≤ ·) ∧
    (IntersectMetrics [[1, 1, 2, 5, 5]] = .ok ([1, 1, 2, 5, 5] : List Nat).dedup ∧
      ∀ x ∈ ([1, 1, 2, 5, 5] : List Nat).getLast?, x ∈ ([1, 1, 2, 5, 5] : List Nat).dedup) :=
  ⟨by decide, C6_intersect_single [1, 1, 2, 5, 5] (by decide)⟩

/-- C7: for ascending-sorted `A` and `B`, `UnionMetrics [A, B]` and `UnionMetrics [B, A]`
return the same list. -/
theorem C7_union_commutes (A B : List Nat) (hA : A.Sorted (· ≤ ·)) (hB : B.Sorted (· ≤ ·)) :
    UnionMetrics [A, B] = UnionMetrics [B, A] ∧ ∃ r, UnionMetrics [A, B] = .ok r := by
  obtain ⟨r, er, _, hr⟩ := UnionMetrics_spec [A, B]
  obtain ⟨r2, er2, _, hr2⟩ := UnionMetrics_spec [B, A]
  obtain ⟨s1, m1⟩ := hr (allSorted_pair hA hB)
  obtain ⟨s2, m2⟩ := hr2 (allSorted_pair hB hA)
  refine ⟨?_, r, er⟩
  rw [er, er2]
  congr 1
  apply sorted_lt_ext s1 s2
  intro x
  rw [m1, m2]
  simp only [List.mem_cons, List.mem_singleton, List.not_mem_nil, or_false, exists_eq_or_imp,
    exists_eq_left]
  exact Or.comm

/-- C7 at the concrete sequences `[1,3,5]` and `[2,3,4]`. -/
theorem C7_union_commutes_witness :
    ([1, 3, 5] : List Nat).Sorted (· ≤ ·) ∧ ([2, 3, 4] : List Nat).Sorted (· ≤ ·) ∧
    (UnionMetrics [[1, 3, 5], [2, 3, 4]] = UnionMetrics [[2, 3, 4], [1, 3, 5]] ∧
      ∃ r, UnionMetrics [[1, 3, 5], [2, 3, 4]] = .ok r) :=
  ⟨by decide, by decide, C7_union_commutes [1, 3, 5] [2, 3, 4] (by decide) (by decide)⟩

/-- C8: for ascending-sorted `A` and `B` sharing no element, `IntersectMetrics [A, B]` is
empty and `UnionMetrics [A, B]` is the sorted merge of `A` and `B`: strictly ascending, holding
exactly the values of `A` and of `B`, equal to the deduplicated `List.merge A B`, and equal to
`List.merge A B` itself when neither sequence repeats a value. -/
theorem C8_disjoint_duality (A B : List Nat) (hA : A.Sorted (· ≤ ·)) (hB : B.Sorted (· ≤ ·))
    (hd : ∀ x ∈ A, x ∉ B) :
    IntersectMetrics [A, B] = .ok [] ∧
    ∃ r, UnionMetrics [A, B] = .ok r ∧ r.Sorted (· < ·) ∧ (∀ x, x ∈ r ↔ x ∈ A ∨ x ∈ B) ∧
      r = (List.merge A B).dedup ∧ (A.Nodup → B.Nodup → r = List.merge A B) := by
  constructor
  · obtain ⟨r, er, _, _, mr, _⟩ := IntersectMetrics_spec [A, B]
    rw [er]
    congr 1
    apply List.eq_nil_iff_forall_not_mem.mpr
    intro x hx
    exact hd x (mr x hx A (by simp)) (mr x hx B (by simp))
  · obtain ⟨r, er, _, hr⟩ := UnionMetrics_spec [A, B]
    obtain ⟨s1, m1⟩ := hr (allSorted_pair hA hB)
    have hmem : ∀ x, x ∈ r ↔ x ∈ A ∨ x ∈ B := by
      intro x
      rw [m1]
      simp only [List.mem_cons, List.mem_singleton, List.not_mem_nil, or_false,
        exists_eq_or_imp, exists_eq_left]
    have hms : (List.merge A B).Sorted (· ≤ ·) := List.Sorted.merge hA hB
    have hdd : r = (List.merge A B).dedup := by
      apply sorted_lt_ext s1 (dedup_sorted_lt hms)
      intro x
      rw [hmem, List.mem_dedup, List.mem_merge]
    refine ⟨r, er, s1, hmem, hdd, ?_⟩
    intro nA nB
    rw [hdd]
    apply List.Nodup.dedup
    have hp : (List.merge A B).Perm (A ++ B) := List.merge_perm_append _
    rw [hp.nodup_iff]
    exact List.Nodup.append nA nB (fun x hxA hxB => hd x hxA hxB)

/-- C8 at the concrete sequences `[1,4,4,9]` and `[2,3,10]`. -/
theorem C8_disjoint_duality_witness :
    ([1, 4, 4, 9] : List Nat).Sorted (· ≤ ·) ∧ ([2, 3, 10] : List Nat).Sorted (· ≤ ·) ∧
    (∀ x ∈ ([1, 4, 4, 9] : List Nat), x ∉ ([2, 3, 10] : List Nat)) ∧
    (IntersectMetrics [[1, 4, 4, 9], [2, 3, 10]] = .ok [] ∧
      ∃ r, UnionMetrics [[1, 4, 4, 9], [2, 3, 10]] = .ok r ∧ r.Sorted (· < ·) ∧
        (∀ x, x ∈ r ↔ x ∈ ([1, 4, 4, 9] : List Nat) ∨ x ∈ ([2, 3, 10] : List Nat)) ∧
        r = (List.merge [1, 4, 4, 9] [2, 3, 10]).dedup ∧
        (([1, 4, 4, 9] : List Nat).Nodup → ([2, 3, 10] : List Nat).Nodup →
          r = List.merge [1, 4, 4, 9] [2, 3, 10])) :=
  ⟨by decide, by decide, by decide,
    C8_disjoint_duality [1, 4, 4, 9] [2, 3, 10] (by decide) (by decide) (by decide)⟩

/-- C9: for every input collection, `UnionMetrics` succeeds and returns the same list as on
the collection with all empty sequences removed. -/
theorem C9_union_ignores_empty (sets : List (List Nat)) :
    UnionMetrics sets = UnionMetrics (sets.filter (fun s => decide (s ≠ []))) ∧
    ∃ r, UnionMetrics sets = .ok r := by
  obtain ⟨r, er, _⟩ := UnionMetrics_spec sets
  exact ⟨(UnionMetrics_filter sets).symm, r, er⟩

/-- C10: `UnionMetrics` and `IntersectMetrics` return a list on every input, sorted or not:
no access to a heap position or to the head of a heap sequence is out of range.  The
invariants behind it: `heap.Fix` and `heap.Pop` keep every heap sequence non-empty, and the
advancing loop of `IntersectMetrics` keeps every heap sequence non-empty and the number of
heap sequences unchanged. -/
theorem C10_never_fails (sets : List (List Nat)) :
    (∃ r, UnionMetrics sets = .ok r) ∧ (∃ r, IntersectMetrics sets = .ok r) ∧
    (∀ (h : MetricSetsHeap) (i : Nat), NE h → i < h.length →
      ∃ h1, heap.Fix MetricSetsHeap.iface h i = .ok h1 ∧ NE h1 ∧ h1.length = h.length) ∧
    (∀ (h : MetricSetsHeap), NE h → 0 < h.length →
      ∃ h1 x, heap.Pop MetricSetsHeap.iface h = .ok (h1, x) ∧ NE h1 ∧
        h1.length + 1 = h.length) ∧
    (∀ (fixups : List Bool) (h : MetricSetsHeap), NE h → fixups.length ≤ h.length →
      ∃ r, IntersectMetrics.advance fixups 0 h = .ok r ∧
        ∀ h1, r = some h1 → NE h1 ∧ h1.length = h.length) := by
  obtain ⟨r, er, _⟩ := UnionMetrics_spec sets
  obtain ⟨r2, er2, _⟩ := IntersectMetrics_spec sets
  refine ⟨⟨r, er⟩, ⟨r2, er2⟩, ?_, ?_, ?_⟩
  · intro h i hne hi
    obtain ⟨h1, e1, p1, _⟩ := Fix_spec h i hne hi
    exact ⟨h1, e1, hne.of_perm p1, p1.length_eq⟩
  · intro h hne hpos
    obtain ⟨h1, x, e1, _, p1, _⟩ := Pop_spec h hne hpos
    refine ⟨h1, x, e1, fun l hl => hne l (p1.subset (List.mem_cons_of_mem _ hl)), ?_⟩
    simpa using p1.length_eq
  · intro fixups h hne hlen
    obtain ⟨r3, e3, h3⟩ := IntersectMetrics.advance_spec fixups 0 h hne (by omega)
    refine ⟨r3, e3, ?_⟩
    intro h1 e
    obtain ⟨a1, _⟩ := h3 h1 e
    exact ⟨a1.ne hne, a1.length_eq⟩

open postings

/-! ## The text index -/

theorem docsToMetricsLoop_ok (Q : Nat → String) (docMap : GoMap DocID Metric) :
    ∀ (docIDs : List DocID)
    (acc : List Metric), (∀ d ∈ docIDs, docMap d ≠ none) →
    ∃ ms, docsToMetricsLoop Q docMap docIDs acc = .ok (acc ++ ms) ∧
      docIDs.map docMap = ms.map some := by
  intro docIDs
  induction docIDs with
  | nil => intro acc _; exact ⟨[], by simp [docsToMetricsLoop], rfl⟩
  | cons d rest ih =>
    intro acc hall
    cases hd : docMap d with
    | none => exact absurd hd (hall d (by simp))
    | some m =>
      obtain ⟨ms, e, hm⟩ := ih (acc ++ [m]) (fun x hx => hall x (List.mem_cons_of_mem _ hx))
      refine ⟨m :: ms, ?_, ?_⟩
      · unfold docsToMetricsLoop
        simp only [hd]
        rw [e]; simp
      · simp [hd, hm]

theorem docsToMetricsLoop_err (Q : Nat → String) (docMap : GoMap DocID Metric) :
    ∀ (pre : List DocID) (d : DocID)
    (rest : List DocID) (acc : List Metric), (∀ x ∈ pre, docMap x ≠ none) → docMap d = none →
    docsToMetricsLoop Q docMap (pre ++ d :: rest) acc = .error (missingDocError Q d) := by
  intro pre
  induction pre with
  | nil =>
    intro d rest acc _ hd
    simp [docsToMetricsLoop, hd]
  | cons x pre ih =>
    intro d rest acc hall hd
    cases hx : docMap x with
    | none => exact absurd hx (hall x (by simp))
    | some m =>
      simp only [List.cons_append, docsToMetricsLoop, hx]
      exact ih d rest _ (fun y hy => hall y (List.mem_cons_of_mem _ hy)) hd

theorem exists_first_missing (docMap : GoMap DocID Metric) : ∀ (docIDs : List DocID),
    (∃ d ∈ docIDs, docMap d = none) →
    ∃ pre d rest, docIDs = pre ++ d :: rest ∧ (∀ x ∈ pre, docMap x ≠ none) ∧ docMap d = none := by
  intro docIDs
  induction docIDs with
  | nil => rintro ⟨d, hd, _⟩; simp at hd
  | cons a t ih =>
    rintro ⟨d, hd, hn⟩
    cases ha : docMap a with
    | none => exact ⟨[], a, t, rfl, by simp, ha⟩
    | some m =>
      have hdt : d ∈ t := by
        rcases List.mem_cons.mp hd with e | e
        · subst e; rw [ha] at hn; exact Option.noConfusion hn
        · exact e
      obtain ⟨pre, d2, rest, e, hp, hd2⟩ := ih ⟨d, hdt, hn⟩
      refine ⟨a :: pre, d2, rest, by simp [e], ?_, hd2⟩
      intro x hx
      rcases List.mem_cons.mp hx with e2 | e2
      · subst e2; simp [ha]
      · exact hp x e2

theorem Query_ok (C : Collaborators) (pi : Index C.engine) (tokens : List Nat)
    (hall : ∀ d ∈ C.engine.Query pi.idx tokens, pi.docMetric d ≠ none) :
    ∃ ms, Query C pi tokens = .ok ms ∧
      (C.engine.Query pi.idx tokens).map pi.docMetric = ms.map some := by
  obtain ⟨ms, e, hm⟩ := docsToMetricsLoop_ok C.QuoteRune pi.docMetric
    (C.engine.Query pi.idx tokens) [] hall
  refine ⟨ms, ?_, hm⟩
  unfold Query docsToMetrics
  simp only [index, unsafeTermIDSlice, docToMetricMap, e, List.nil_append]

theorem Query_err (C : Collaborators) (pi : Index C.engine) (tokens : List Nat)
    (pre : List DocID) (d : DocID) (rest : List DocID)
    (hsplit : C.engine.Query pi.idx tokens = pre ++ d :: rest)
    (hpre : ∀ x ∈ pre, pi.docMetric x ≠ none) (hd : pi.docMetric d = none) :
    Query C pi tokens = .error (unmappingError (missingDocError C.QuoteRune d)) := by
  unfold Query docsToMetrics
  simp only [index, unsafeTermIDSlice, docToMetricMap, hsplit,
    docsToMetricsLoop_err C.QuoteRune pi.docMetric pre d rest [] hpre hd]

theorem materializeLoop_ok (C : Collaborators) (hashed : List Metric) :
    ∀ (names : List String) (i : Nat) (w : C.engine.WriteIndex) (dm : GoMap DocID Metric)
      (mm : GoMap Metric String),
    (∀ k, k < names.length → hashed[i + k]? = (names[k]?).map C.HashStr64) →
    (∀ n ∈ names, ∃ ts, C.Tokenize n = .ok ts) →
    ∃ w1 dm1 mm1, materializeLoop C hashed names i w dm mm = (w1, .ok (dm1, mm1)) := by
  intro names
  induction names with
  | nil => intro i w dm mm _ _; exact ⟨w, dm, mm, rfl⟩
  | cons n rest ih =>
    intro i w dm mm hh ht
    obtain ⟨ts, hts⟩ := ht n (by simp)
    have h0 := hh 0 (by simp)
    simp only [Nat.add_zero, List.getElem?_cons_zero, Option.map_some'] at h0
    unfold materializeLoop
    simp only [h0, hts]
    apply ih
    · intro k hk
      have := hh (k + 1) (by simpa using hk)
      simpa [Nat.add_assoc, Nat.add_comm 1 k] using this
    · intro x hx; exact ht x (List.mem_cons_of_mem _ hx)

theorem materializeLoop_err (C : Collaborators) (hashed : List Metric) :
    ∀ (names : List String) (i : Nat) (w : C.engine.WriteIndex) (dm : GoMap DocID Metric)
      (mm : GoMap Metric String),
    (∃ n ∈ names, ∃ e, C.Tokenize n = .error e) →
    ∃ w1 p, materializeLoop C hashed names i w dm mm = (w1, .error p) := by
  intro names
  induction names with
  | nil => intro i w dm mm h; obtain ⟨n, hn, _⟩ := h; simp at hn
  | cons n rest ih =>
    intro i w dm mm h
    unfold materializeLoop
    cases hh : hashed[i]? with
    | none => exact ⟨w, _, rfl⟩
    | some metric =>
      cases ht : C.Tokenize n with
      | error err => exact ⟨w, _, rfl⟩
      | ok tokens =>
        simp only
        apply ih
        obtain ⟨x, hx, e, he⟩ := h
        rcases List.mem_cons.mp hx with e1 | e1
        · subst e1; rw [ht] at he; exact Except.noConfusion he
        · exact ⟨x, e1, e, he⟩

theorem hashed_getElem? (f : String → Nat) (names : List String) (k : Nat) :
    (HashMetrics f names)[0 + k]? = (names[k]?).map f := by
  simp only [HashMetrics, Nat.zero_add, List.getElem?_map]
  rfl

theorem materializeLoop_spec (C : Collaborators)
    (docs : C.engine.WriteIndex → List (DocID × List TermID)) (hl : C.engine.Laws docs)
    (hashed : List Metric) :
    ∀ (names : List String) (i : Nat) (w : C.engine.WriteIndex) (dm : GoMap DocID Metric)
      (mm : GoMap Metric String) (w1 : C.engine.WriteIndex) (dm1 : GoMap DocID Metric)
      (mm1 : GoMap Metric String),
    (∀ k, k < names.length → hashed[i + k]? = (names[k]?).map C.HashStr64) →
    ((docs w).map Prod.fst).Nodup →
    materializeLoop C hashed names i w dm mm = (w1, .ok (dm1, mm1)) →
    ((docs w1).map Prod.fst).Nodup ∧
    (∀ d ∈ (docs w).map Prod.fst, dm1 d = dm d) ∧
    (∃ L, docs w1 = docs w ++ L ∧
      List.Forall₂ (fun n (p : DocID × List TermID) =>
        C.Tokenize n = .ok p.2 ∧ dm1 p.1 = some (C.HashStr64 n)) names L) ∧
    (∀ d m, dm1 d = some m → dm d = some m ∨ ∃ n ∈ names, m = C.HashStr64 n) ∧
    (∀ m n, mm1 m = some n → mm m = some n ∨ (n ∈ names ∧ m = C.HashStr64 n)) := by
  intro names
  induction names with
  | nil =>
    intro i w dm mm w1 dm1 mm1 _ hnd e
    simp only [materializeLoop, Prod.mk.injEq, Except.ok.injEq] at e
    obtain ⟨e1, e2, e3⟩ := e
    subst e1; subst e2; subst e3
    exact ⟨hnd, fun _ _ => rfl, ⟨[], by simp, List.Forall₂.nil⟩, fun _ _ h => Or.inl h,
      fun _ _ h => Or.inl h⟩
  | cons n rest ih =>
    intro i w dm mm w1 dm1 mm1 hh hnd e
    have h0 := hh 0 (by simp)
    simp only [Nat.add_zero, List.getElem?_cons_zero, Option.map_some'] at h0
    unfold materializeLoop at e
    simp only [h0] at e
    cases ht : C.Tokenize n with
    | error err =>
      rw [ht] at e
      simp only [Prod.mk.injEq] at e
      exact Except.noConfusion e.2
    | ok ts =>
      rw [ht] at e
      simp only [unsafeTermIDSlice] at e
      have hadd := hl.addDocument w ts
      have hfresh := hl.fresh w ts
      have hnd2 : ((docs (C.engine.AddDocument w ts).1).map Prod.fst).Nodup := by
        rw [hadd, List.map_append, List.nodup_append]
        refine ⟨hnd, by simp, ?_⟩
        intro a ha hb
        simp only [List.map_cons, List.map_nil, List.mem_singleton] at hb
        obtain ⟨p, hp, hpa⟩ := List.mem_map.mp ha
        exact hfresh p hp (by rw [hpa, hb])
      obtain ⟨r1, r2, ⟨L, hL, hF⟩, r4, r5⟩ := ih (i + 1) _ _ _ w1 dm1 mm1 (by
        intro k hk
        have := hh (k + 1) (by simpa using hk)
        simpa [Nat.add_assoc, Nat.add_comm 1 k] using this) hnd2 e
      have hd0 : dm1 (C.engine.AddDocument w ts).2 = some (C.HashStr64 n) := by
        rw [r2 _ (by rw [hadd]; simp)]
        simp [GoMap.insert]
      refine ⟨r1, ?_, ⟨((C.engine.AddDocument w ts).2, ts) :: L, ?_, ?_⟩, ?_, ?_⟩
      · intro d hd
        rw [r2 d (by rw [hadd, List.map_append]; exact List.mem_append_left _ hd)]
        obtain ⟨p, hp, hpa⟩ := List.mem_map.mp hd
        have hne : d ≠ (C.engine.AddDocument w ts).2 := by
          rw [← hpa]; exact hfresh p hp
        simp [GoMap.insert, hne]
      · rw [hL, hadd]; simp
      · exact List.Forall₂.cons ⟨ht, hd0⟩ hF
      · intro d m hdm
        rcases r4 d m hdm with h1 | ⟨x, hx, e2⟩
        · unfold GoMap.insert at h1
          split at h1
          · right
            simp only [Option.some.injEq] at h1
            exact ⟨n, by simp, h1.symm⟩
          · exact Or.inl h1
        · exact Or.inr ⟨x, List.mem_cons_of_mem _ hx, e2⟩
      · intro m x hmx
        rcases r5 m x hmx with h1 | ⟨hx, e2⟩
        · unfold GoMap.insert at h1
          split at h1
          · rename_i hm
            right
            simp only [Option.some.injEq] at h1
            exact ⟨by rw [← h1]; simp, by rw [← h1]; exact hm⟩
          · exact Or.inl h1
        · exact Or.inr ⟨List.mem_cons_of_mem _ hx, e2⟩

theorem Materialize_ok (C : Collaborators) (pi : Index C.engine) (names : List String)
    (htok : ∀ n ∈ names, ∃ ts, C.Tokenize n = .ok ts) :
    ∃ w1 dm1 mm1,
      materializeLoop C (HashMetrics C.HashStr64 names) names 0 pi.writeIdx
        GoMap.empty GoMap.empty = (w1, .ok (dm1, mm1)) ∧
      Materialize C pi names =
        ({ writeIdx := C.engine.Empty w1, idx := C.engine.NewCompressedIndex w1,
           docMetric := dm1, metricMap := mm1 }, .ok names.length) := by
  obtain ⟨w1, dm1, mm1, e⟩ := materializeLoop_ok C (HashMetrics C.HashStr64 names) names 0
    pi.writeIdx GoMap.empty GoMap.empty
    (fun k _ => hashed_getElem? C.HashStr64 names k) htok
  refine ⟨w1, dm1, mm1, e, ?_⟩
  unfold Materialize
  simp only [e]

theorem Materialize_err (C : Collaborators) (pi : Index C.engine) (names : List String)
    (hfail : ∃ n ∈ names, ∃ e, C.Tokenize n = .error e) :
    ∃ w1 p, Materialize C pi names = ({ pi with writeIdx := w1 }, .error p) := by
  obtain ⟨w1, p, e⟩ := materializeLoop_err C (HashMetrics C.HashStr64 names) names 0
    pi.writeIdx GoMap.empty GoMap.empty hfail
  refine ⟨w1, p, ?_⟩
  unfold Materialize
  simp only [e]

theorem forall2_mem_right {α β : Type} {R : α → β → Prop} {l1 : List α} {l2 : List β}
    (h : List.Forall₂ R l1 l2) : ∀ b ∈ l2, ∃ a ∈ l1, R a b := by
  induction h with
  | nil => intro b hb; simp at hb
  | cons hab _ ih =>
    intro b hb
    rcases List.mem_cons.mp hb with e | e
    · subst e; exact ⟨_, by simp, hab⟩
    · obtain ⟨a, ha, r⟩ := ih b e
      exact ⟨a, List.mem_cons_of_mem _ ha, r⟩

theorem forall2_mem_left {α β : Type} {R : α → β → Prop} {l1 : List α} {l2 : List β}
    (h : List.Forall₂ R l1 l2) : ∀ a ∈ l1, ∃ b ∈ l2, R a b := by
  induction h with
  | nil => intro a ha; simp at ha
  | cons hab _ ih =>
    intro a ha
    rcases List.mem_cons.mp ha with e | e
    · subst e; exact ⟨_, by simp, hab⟩
    · obtain ⟨b, hb, r⟩ := ih a e
      exact ⟨b, List.mem_cons_of_mem _ hb, r⟩

/-- What a generation published by `Materialize names` holds, over a lawful engine: `L` lists
the documents of the compiled structure, one per name and in the order of the names. -/
theorem Materialize_spec (C : Collaborators)
    (docs : C.engine.WriteIndex → List (DocID × List TermID)) (hl : C.engine.Laws docs)
    (pi : Index C.engine) (names : List String)
    (htok : ∀ n ∈ names, ∃ ts, C.Tokenize n = .ok ts) (hw : docs pi.writeIdx = []) :
    (Materialize C pi names).2 = .ok names.length ∧
    docs (Materialize C pi names).1.writeIdx = [] ∧
    ∃ L : List (DocID × List TermID),
      (∀ q d, d ∈ C.engine.Query (Materialize C pi names).1.idx q ↔
        ∃ ts, (d, ts) ∈ L ∧ ∀ t ∈ q, t ∈ ts) ∧
      (∀ q, (C.engine.Query (Materialize C pi names).1.idx q).Nodup) ∧
      (L.map Prod.fst).Nodup ∧
      List.Forall₂ (fun n (p : DocID × List TermID) => C.Tokenize n = .ok p.2 ∧
        (Materialize C pi names).1.docMetric p.1 = some (C.HashStr64 n)) names L ∧
      (∀ d m, (Materialize C pi names).1.docMetric d = some m →
        ∃ n ∈ names, m = C.HashStr64 n) ∧
      (∀ m n, (Materialize C pi names).1.metricMap m = some n →
        n ∈ names ∧ m = C.HashStr64 n) := by
  obtain ⟨w1, dm1, mm1, e, em⟩ := Materialize_ok C pi names htok
  obtain ⟨r1, _, ⟨L, hL, hF⟩, r4, r5⟩ := materializeLoop_spec C docs hl _ names 0 pi.writeIdx
    GoMap.empty GoMap.empty w1 dm1 mm1 (fun k _ => hashed_getElem? C.HashStr64 names k)
    (by rw [hw]; simp) e
  rw [hw, List.nil_append] at hL
  rw [em]
  refine ⟨rfl, hl.empty w1, L, ?_, fun q => hl.query_nodup w1 q, by rw [← hL]; exact r1, hF,
    ?_, ?_⟩
  · intro q d
    simp only
    rw [hl.query w1 q d, hL]
  · intro d m h
    rcases r4 d m h with h1 | h1
    · simp [GoMap.empty] at h1
    · exact h1
  · intro m n h
    rcases r5 m n h with h1 | h1
    · simp [GoMap.empty] at h1
    · exact h1

theorem mem_of_map_eq_map_some {ds : List DocID} {ms : List Metric} {f : GoMap DocID Metric}
    (h : ds.map f = ms.map some) (m : Metric) : m ∈ ms ↔ ∃ d ∈ ds, f d = some m := by
  constructor
  · intro hm
    have : some m ∈ ms.map some := List.mem_map.mpr ⟨m, hm, rfl⟩
    rw [← h] at this
    obtain ⟨d, hd, e⟩ := List.mem_map.mp this
    exact ⟨d, hd, e⟩
  · rintro ⟨d, hd, e⟩
    have : some m ∈ ds.map f := List.mem_map.mpr ⟨d, hd, e⟩
    rw [h] at this
    obtain ⟨m2, hm2, e2⟩ := List.mem_map.mp this
    simp only [Option.some.injEq] at e2
    rw [← e2]; exact hm2

/-- A query against the generation published by `Materialize names`, over a lawful engine. -/
theorem Query_after_Materialize (C : Collaborators)
    (docs : C.engine.WriteIndex → List (DocID × List TermID)) (hl : C.engine.Laws docs)
    (pi : Index C.engine) (names : List String)
    (htok : ∀ n ∈ names, ∃ ts, C.Tokenize n = .ok ts) (hw : docs pi.writeIdx = [])
    (q : List Nat) :
    ∃ ms, Query C (Materialize C pi names).1 q = .ok ms ∧
      ∀ m, m ∈ ms ↔ ∃ n ∈ names, ∃ ts, C.Tokenize n = .ok ts ∧ (∀ t ∈ q, t ∈ ts) ∧
        m = C.HashStr64 n := by
  obtain ⟨_, _, L, hq, _, _, hF, _, _⟩ := Materialize_spec C docs hl pi names htok hw
  have hall : ∀ d ∈ C.engine.Query (Materialize C pi names).1.idx q,
      (Materialize C pi names).1.docMetric d ≠ none := by
    intro d hd
    obtain ⟨ts, hts, _⟩ := (hq q d).mp hd
    obtain ⟨n, _, _, hdm⟩ := forall2_mem_right hF (d, ts) hts
    simp only at hdm
    rw [hdm]; simp
  obtain ⟨ms, e, hm⟩ := Query_ok C _ q hall
  refine ⟨ms, e, ?_⟩
  intro m
  rw [mem_of_map_eq_map_some hm]
  constructor
  · rintro ⟨d, hd, hdm⟩
    obtain ⟨ts, hts, hsub⟩ := (hq q d).mp hd
    obtain ⟨n, hn, htk, hdm2⟩ := forall2_mem_right hF (d, ts) hts
    simp only at htk hdm2
    rw [hdm2] at hdm
    simp only [Option.some.injEq] at hdm
    exact ⟨n, hn, ts, htk, hsub, hdm.symm⟩
  · rintro ⟨n, hn, ts, htk, hsub, e2⟩
    obtain ⟨p, hp, htk2, hdm2⟩ := forall2_mem_left hF n hn
    rw [htk] at htk2
    simp only [Except.ok.injEq] at htk2
    refine ⟨p.1, (hq q p.1).mpr ⟨ts, ?_, hsub⟩, ?_⟩
    · rw [htk2]; exact hp
    · rw [hdm2, e2]

theorem eq_singleton_of_nodup {α : Type} {l : List α} {a : α} (hnd : l.Nodup)
    (h : ∀ x, x ∈ l ↔ x = a) : l = [a] := by
  cases l with
  | nil => exact absurd ((h a).mpr rfl) (by simp)
  | cons b t =>
    have hb : b = a := (h b).mp (by simp)
    subst hb
    have ht : t = [] := by
      apply List.eq_nil_iff_forall_not_mem.mpr
      intro x hx
      have hxb : x = b := (h x).mp (List.mem_cons_of_mem _ hx)
      subst hxb
      exact (List.nodup_cons.mp hnd).1 hx
    rw [ht]

theorem listEngine_add (w : List (List TermID)) (ts : List TermID) :
    List.enum (w ++ [ts]) = List.enum w ++ [(w.length, ts)] := by
  rw [List.enum_append]
  rfl

theorem listEngine_fresh (w : List (List TermID)) (p : DocID × List TermID)
    (hp : p ∈ List.enum w) : p.1 ≠ w.length := by
  exact Nat.ne_of_lt (List.fst_lt_of_mem_enum hp)

theorem listEngine_query (w : List (List TermID)) (q : List TermID) (d : DocID) :
    d ∈ (List.range w.length).filter (fun d => q.all (fun t => (w.getD d []).contains t)) ↔
      ∃ ts, (d, ts) ∈ List.enum w ∧ ∀ t ∈ q, t ∈ ts := by
  simp only [List.mem_filter, List.mem_range, List.all_eq_true, List.mk_mem_enum_iff_getElem?]
  constructor
  · rintro ⟨hd, hall⟩
    refine ⟨w[d], List.getElem?_eq_getElem hd, ?_⟩
    intro t ht
    have := hall t ht
    rw [List.getD_eq_getElem?_getD, List.getElem?_eq_getElem hd] at this
    simpa using this
  · rintro ⟨ts, hts, hall⟩
    have hd : d < w.length := by
      by_contra hc
      rw [List.getElem?_eq_none (Nat.le_of_not_lt hc)] at hts
      exact Option.noConfusion hts
    refine ⟨hd, ?_⟩
    intro t ht
    rw [List.getD_eq_getElem?_getD, hts]
    simpa using hall t ht

theorem listEngine_laws : listEngine.Laws listEngine.docs :=
  ⟨rfl, fun _ => rfl, listEngine_add, fun w _ p hp => listEngine_fresh w p hp,
    listEngine_query, fun _ _ => (List.nodup_range _).filter _⟩

/-! ### Interleavings of `Query` and the stores of `Materialize` -/

theorem stores_publish {E : Engine} (pi new : Index E) :
    (stores new).foldl (fun s f => f s) pi = { new with writeIdx := pi.writeIdx } := rfl

theorem interleave_trues (C : Collaborators) (tokens : List Nat) : ∀ (a : Nat)
    (s : Index C.engine) (sts : List (Index C.engine → Index C.engine)) (q : QueryThread)
    (sch : List Bool),
    interleave C tokens (List.replicate a true ++ sch) s sts q =
      interleave C tokens sch ((sts.take a).foldl (fun s f => f s) s) (sts.drop a) q := by
  intro a
  induction a with
  | zero => intro s sts q sch; simp
  | succ a ih =>
    intro s sts q sch
    cases sts with
    | nil =>
      simp only [List.replicate_succ, List.cons_append, interleave, List.append_eq]
      rw [ih]; simp
    | cons st sts =>
      simp only [List.replicate_succ, List.cons_append, interleave, List.append_eq]
      rw [ih]; simp

theorem interleave_done (C : Collaborators) (tokens : List Nat) : ∀ (sch : List Bool)
    (s : Index C.engine) (sts : List (Index C.engine → Index C.engine))
    (r : Except String (List Metric)),
    (interleave C tokens sch s sts (.done r)).2 = .done r := by
  intro sch
  induction sch with
  | nil => intro s sts r; rfl
  | cons b sch ih =>
    intro s sts r
    cases b with
    | false => simp only [interleave, QueryThread.step]; exact ih _ _ _
    | true =>
      cases sts with
      | nil => simp only [interleave]; exact ih _ _ _
      | cons st sts => simp only [interleave]; exact ih _ _ _

theorem afterStores_idx {E : Engine} (pi new : Index E) (k : Nat) :
    (((stores new).take k).foldl (fun s f => f s) pi).idx
      = if 1 ≤ k then new.idx else pi.idx := by
  rcases k with _ | _ | _ | k <;> simp [stores]

theorem afterStores_docMetric {E : Engine} (pi new : Index E) (k : Nat) :
    (((stores new).take k).foldl (fun s f => f s) pi).docMetric
      = if 2 ≤ k then new.docMetric else pi.docMetric := by
  rcases k with _ | _ | _ | k <;> simp [stores]

theorem Query_congr (C : Collaborators) (s1 s2 : Index C.engine) (tokens : List Nat)
    (h1 : s1.idx = s2.idx) (h2 : s1.docMetric = s2.docMetric) :
    Query C s1 tokens = Query C s2 tokens := by
  unfold Query docsToMetrics index docToMetricMap
  rw [h1, h2]

theorem interleave_result (C : Collaborators) (tokens : List Nat) (pi new : Index C.engine)
    (a b : Nat) (rest : List Bool) :
    (interleave C tokens
        (List.replicate a true ++ false :: (List.replicate b true ++ false :: rest))
        pi (stores new) .start).2 =
      .done (Query C
        { writeIdx := pi.writeIdx
          idx := if 1 ≤ a then new.idx else pi.idx
          docMetric := if 2 ≤ a + b then new.docMetric else pi.docMetric
          metricMap := pi.metricMap } tokens) := by
  rw [interleave_trues]
  simp only [interleave, QueryThread.step]
  rw [interleave_trues]
  simp only [interleave, QueryThread.step]
  rw [interleave_done]
  congr 1
  have hfold : List.foldl (fun s f => f s)
      (List.foldl (fun s f => f s) pi (List.take a (stores new)))
      (List.take b (List.drop a (stores new)))
      = List.foldl (fun s f => f s) pi (List.take (a + b) (stores new)) := by
    rw [List.take_add, List.foldl_append]
  rw [hfold]
  unfold Query docsToMetrics index docToMetricMap
  simp only [afterStores_idx, afterStores_docMetric]

/-! ### One pass through the loop bodies -/

theorem UnionMetrics.union_loop_iter (fuel : Nat) (h : MetricSetsHeap) (set : List Metric) :
    UnionMetrics.loop (fuel + 1) h set =
      if MetricSetsHeap.Len h > 0 then
        match UnionMetrics.iter h set with
        | .error e => .error e
        | .ok (h1, set1) => UnionMetrics.loop fuel h1 set1
      else .ok set := by
  rw [UnionMetrics.loop]
  unfold UnionMetrics.iter
  split
  · cases h[0]? with
    | none => rfl
    | some cur =>
      cases cur with
      | nil => rfl
      | cons metric tl =>
        simp only
        split
        · cases heap.Pop MetricSetsHeap.iface h with
          | error e => rfl
          | ok r => rfl
        · cases heap.Fix MetricSetsHeap.iface (h.set 0 tl) 0 with
          | error e => rfl
          | ok r => rfl
  · rfl

theorem IntersectMetrics.intersect_loop_iter (n fuel : Nat) (h : MetricSetsHeap) (set : List Metric) :
    IntersectMetrics.loop n (fuel + 1) h set =
      match IntersectMetrics.iter n h set with
      | .error e => .error e
      | .ok (.inl set1) => .ok set1
      | .ok (.inr (h1, set1)) => IntersectMetrics.loop n fuel h1 set1 := by
  rw [IntersectMetrics.loop]
  unfold IntersectMetrics.iter
  cases h[0]? with
  | none => rfl
  | some cur =>
    cases cur with
    | nil => rfl
    | cons m tl =>
      simp only
      cases IntersectMetrics.scan m h with
      | error e => rfl
      | ok r =>
        obtain ⟨fixups, present⟩ := r
        simp only
        cases IntersectMetrics.advance fixups 0 h with
        | error e => rfl
        | ok r2 =>
          cases r2 with
          | none => rfl
          | some h1 => rfl

theorem UnionMetrics.union_iter_spec (h : MetricSetsHeap) (set : List Metric) (hne : NE h)
    (hpos : h ≠ []) :
    ∃ m tl rest h1, h = (m :: tl) :: rest ∧ UnionMetrics.iter h set = .ok (h1, emit set m) ∧
      h1.Perm (remaining tl rest) ∧ totalLen h1 + 1 = totalLen h ∧ NE h1 := by
  cases h with
  | nil => exact absurd rfl hpos
  | cons cur rest =>
    cases cur with
    | nil => exact absurd rfl (hne [] (by simp))
    | cons m tl =>
      have key1 : ∀ h1 : MetricSetsHeap, h1.Perm (remaining tl rest) →
          totalLen h1 + 1 = totalLen ((m :: tl) :: rest) ∧ NE h1 := by
        intro h1 hp
        constructor
        · rw [totalLen_perm hp, totalLen_remaining, totalLen_cons, List.length_cons]
          omega
        · intro l hl
          rcases mem_remaining.mp (hp.subset hl) with ⟨e, hn⟩ | hr
          · rw [e]; exact hn
          · exact hne l (List.mem_cons_of_mem _ hr)
      unfold UnionMetrics.iter
      simp only [List.getElem?_cons_zero]
      by_cases htl : tl = []
      · subst htl
        obtain ⟨h1, x, e1, hx, p1, _⟩ := Pop_spec ([m] :: rest) hne (by simp)
        simp only [List.getElem?_cons_zero, Option.some.injEq] at hx
        subst hx
        have hp : h1.Perm (remaining [] rest) := by simpa [remaining] using p1.cons_inv
        refine ⟨m, [], rest, h1, rfl, ?_, hp, (key1 h1 hp).1, (key1 h1 hp).2⟩
        simp only [List.length_cons, List.length_nil, Nat.zero_add, if_true, e1]
      · have hne2 : NE (tl :: rest) := by
          intro l hl
          rcases List.mem_cons.mp hl with e | hr
          · rw [e]; exact htl
          · exact hne l (List.mem_cons_of_mem _ hr)
        obtain ⟨h1, e1, p1, _⟩ := Fix_spec (tl :: rest) 0 hne2 (by simp)
        have hp : h1.Perm (remaining tl rest) := by simpa [remaining, htl] using p1
        refine ⟨m, tl, rest, h1, rfl, ?_, hp, (key1 h1 hp).1, (key1 h1 hp).2⟩
        have hlen : ¬ (tl.length + 1 = 1) := by
          intro e
          exact htl (List.length_eq_zero.mp (by omega))
        simp only [List.length_cons, hlen, if_false, List.set_cons_zero, e1]

theorem IntersectMetrics.intersect_iter_spec (n : Nat) (h : MetricSetsHeap) (set : List Metric)
    (hne : NE h) (hpos : h ≠ []) :
    (∃ fx p m, h[0]?.bind List.head? = some m ∧
      IntersectMetrics.scan m h = .ok (true :: fx, p)) ∧
    ((∃ s, IntersectMetrics.iter n h set = .ok (.inl s)) ∨
     (∃ h1 s1, IntersectMetrics.iter n h set = .ok (.inr (h1, s1)) ∧
        totalLen h1 < totalLen h ∧ NE h1 ∧ h1.length = h.length)) := by
  cases h with
  | nil => exact absurd rfl hpos
  | cons cur rest =>
    cases cur with
    | nil => exact absurd rfl (hne [] (by simp))
    | cons m tl =>
      have hscan := IntersectMetrics.scan_spec m _ hne
      constructor
      · exact ⟨rest.map (fun l => decide (l.headD 0 ≤ m)),
          List.countP (fun l => decide (l.headD 0 = m)) ((m :: tl) :: rest), m, by simp,
          by rw [hscan]; simp⟩
      · unfold IntersectMetrics.iter
        simp only [List.getElem?_cons_zero, hscan]
        obtain ⟨r, er, hr⟩ := IntersectMetrics.advance_spec
          (List.map (fun l => decide (l.headD 0 ≤ m)) ((m :: tl) :: rest)) 0 ((m :: tl) :: rest)
          hne (by simp)
        rw [er]
        cases r with
        | none => exact Or.inl ⟨_, rfl⟩
        | some h1 =>
          obtain ⟨ha, hlt⟩ := hr h1 rfl
          exact Or.inr ⟨h1, _, rfl, hlt (by simp), ha.ne hne, ha.length_eq⟩

theorem Query_two_names (C : Collaborators)
    (docs : C.engine.WriteIndex → List (DocID × List TermID)) (hl : C.engine.Laws docs)
    (pi : Index C.engine) (a x : String) (q ts : List Nat)
    (ha : C.Tokenize a = .ok q) (hx : C.Tokenize x = .ok ts) (hw : docs pi.writeIdx = [])
    (hdiff : ∃ t ∈ q, t ∉ ts) :
    Query C (Materialize C pi [a, x]).1 q = .ok [HashMetric C.HashStr64 a] := by
  have htok : ∀ n ∈ [a, x], ∃ ts, C.Tokenize n = .ok ts := by
    intro n hn
    simp only [List.mem_cons, List.mem_singleton, List.not_mem_nil, or_false] at hn
    rcases hn with e | e
    · exact ⟨q, by rw [e]; exact ha⟩
    · exact ⟨ts, by rw [e]; exact hx⟩
  obtain ⟨_, _, L, hq, hnd, _, hF, _, _⟩ := Materialize_spec C docs hl pi [a, x] htok hw
  rw [List.forall₂_cons_left_iff] at hF
  obtain ⟨pa, L2, ⟨ta, da⟩, hF2, rfl⟩ := hF
  rw [List.forall₂_cons_left_iff] at hF2
  obtain ⟨px, L3, ⟨tx, _⟩, hF3, rfl⟩ := hF2
  rw [List.forall₂_nil_left_iff] at hF3
  subst hF3
  rw [ha] at ta
  rw [hx] at tx
  simp only [Except.ok.injEq] at ta tx
  have hmem : ∀ d, d ∈ C.engine.Query (Materialize C pi [a, x]).1.idx q ↔ d = pa.1 := by
    intro d
    rw [hq q d]
    constructor
    · rintro ⟨ts2, hin, hsub⟩
      simp only [List.mem_cons, List.mem_singleton, List.not_mem_nil, or_false] at hin
      rcases hin with e | e
      · rw [← e]
      · exfalso
        obtain ⟨t, htq, htn⟩ := hdiff
        apply htn
        rw [tx, ← e]
        exact hsub t htq
    · intro e
      refine ⟨pa.2, by rw [e]; simp, ?_⟩
      rw [← ta]; exact fun t ht => ht
  have hlist := eq_singleton_of_nodup (hnd q) hmem
  obtain ⟨ms, e, hm⟩ := Query_ok C (Materialize C pi [a, x]).1 q (by
    intro d hd
    rw [(hmem d).mp hd, da]; simp)
  rw [e]
  rw [hlist] at hm
  simp only [List.map_cons, List.map_nil, da] at hm
  congr 1
  cases ms with
  | nil => simp at hm
  | cons m0 mt =>
    cases mt with
    | nil =>
      simp only [List.map_cons, List.map_nil, List.cons.injEq, Option.some.injEq,
        and_true] at hm
      rw [← hm]; rfl
    | cons m1 mt => simp at hm

/-! ## The claims on the text index and on the loop bodies -/

/-- `Query` (through `docsToMetrics`) returns an error exactly when some Document returned by
the postings engine is absent from the published Document→Metric map; the error is then the
text built for the first such Document; otherwise the result has the length of the Document
list and its i-th element is the Metric the map gives for the i-th Document. -/
theorem Query_unmapped_document (C : Collaborators) (pi : Index C.engine)
    (tokens : List Nat) :
    ((∃ e, Query C pi tokens = .error e) ↔
      ∃ d ∈ C.engine.Query pi.idx tokens, pi.docMetric d = none) ∧
    (∀ pre d rest, C.engine.Query pi.idx tokens = pre ++ d :: rest →
      (∀ x ∈ pre, pi.docMetric x ≠ none) → pi.docMetric d = none →
      Query C pi tokens = .error (unmappingError (missingDocError C.QuoteRune d))) ∧
    ((∀ d ∈ C.engine.Query pi.idx tokens, pi.docMetric d ≠ none) →
      ∃ ms, Query C pi tokens = .ok ms ∧
        ms.length = (C.engine.Query pi.idx tokens).length ∧
        (C.engine.Query pi.idx tokens).map pi.docMetric = ms.map some) := by
  refine ⟨⟨?_, ?_⟩, ?_, ?_⟩
  · rintro ⟨e, he⟩
    by_contra hc
    have hall : ∀ d ∈ C.engine.Query pi.idx tokens, pi.docMetric d ≠ none :=
      fun d hd hn => hc ⟨d, hd, hn⟩
    obtain ⟨ms, e2, _⟩ := Query_ok C pi tokens hall
    rw [e2] at he
    exact Except.noConfusion he
  · intro h
    obtain ⟨pre, d, rest, hs, hp, hd⟩ := exists_first_missing pi.docMetric _ h
    exact ⟨_, Query_err C pi tokens pre d rest hs hp hd⟩
  · intro pre d rest hs hp hd
    exact Query_err C pi tokens pre d rest hs hp hd
  · intro hall
    obtain ⟨ms, e, hm⟩ := Query_ok C pi tokens hall
    refine ⟨ms, e, ?_, hm⟩
    have := congrArg List.length hm
    simpa using this.symm

/-- C11 at the failing input: the postings engine returns the Documents `55296` and `55297`
(`0xD800`, `0xD801`, no valid code points).  When the map lacks `55296` the first unmapped
Document is `55296`, when it holds `55296` and lacks `55297` it is `55297`; `Query` returns
the same error text in both cases, because `%q` prints both as the quoted `utf8.RuneError`,
whatever `strconv.QuoteRune` (here `Q`) does with a valid rune. -/
theorem C11_error_text_hides_document (Q : Nat → String) :
    utf8.ValidRune 55296 = false ∧ utf8.ValidRune 55297 = false ∧
    fmtQc Q 55296 = Q utf8.RuneError ∧ fmtQc Q 55297 = Q utf8.RuneError ∧
    missingDocError Q 55296 = missingDocError Q 55297 ∧
    (answerIndex [55296, 55297] 55297 7).docMetric 55296 = none ∧
    (answerIndex [55296, 55297] 55296 7).docMetric 55296 = some 7 ∧
    (answerIndex [55296, 55297] 55296 7).docMetric 55297 = none ∧
    Query (answerCollab Q [55296, 55297]) (answerIndex [55296, 55297] 55297 7) []
      = .error (unmappingError (missingDocError Q 55296)) ∧
    Query (answerCollab Q [55296, 55297]) (answerIndex [55296, 55297] 55296 7) []
      = .error (unmappingError (missingDocError Q 55297)) ∧
    Query (answerCollab Q [55296, 55297]) (answerIndex [55296, 55297] 55297 7) []
      = Query (answerCollab Q [55296, 55297]) (answerIndex [55296, 55297] 55296 7) [] :=
  ⟨rfl, rfl, rfl, rfl, rfl, rfl, rfl, rfl, rfl, rfl, rfl⟩

/-- C12 fails as stated, in two ways, both over the lawful reference engine.  With a
tokenizer that gives every name the token `7`, `Materialize ["a.b.c", "x.y.z"]` returns 2 and
the query for the tokens of `"a.b.c"` returns the Metrics of both names, not only that of
`"a.b.c"`.  With the character tokenizer, on the index left by a `Materialize` that panicked
after adding `"a.b.c.d"` (the write structure still holds that document),
`Materialize ["a.b.c", "x.y.z"]` returns 2 and the query for the tokens of `"a.b.c"` returns
an error for the Document `0`, which the new map does not hold. -/
theorem C12_round_trip_counterexample :
    listEngine.Laws listEngine.docs ∧
    (∀ n, ∃ ts, oneTokenCollab.Tokenize n = .ok ts) ∧
    oneTokenCollab.Tokenize "a.b.c" = .ok [7] ∧
    (Materialize oneTokenCollab (NewIndex listEngine) ["a.b.c", "x.y.z"]).2 = .ok 2 ∧
    Query oneTokenCollab (Materialize oneTokenCollab (NewIndex listEngine)
        ["a.b.c", "x.y.z"]).1 [7]
      = .ok [HashMetric charHash "a.b.c", HashMetric charHash "x.y.z"] ∧
    Query oneTokenCollab (Materialize oneTokenCollab (NewIndex listEngine)
        ["a.b.c", "x.y.z"]).1 [7]
      ≠ .ok [HashMetric charHash "a.b.c"] ∧
    (Materialize refCollab (NewIndex listEngine) ["a.b.c.d", ""]).2
      = .error (.cannotTokenize
          (cannotTokenizeMessage charQuote (HashMetric charHash "") "empty name")) ∧
    refCollab.Tokenize "a.b.c" = .ok [97, 46, 98, 46, 99] ∧
    refCollab.Tokenize "x.y.z" = .ok [120, 46, 121, 46, 122] ∧
    (Materialize refCollab (Materialize refCollab (NewIndex listEngine) ["a.b.c.d", ""]).1
        ["a.b.c", "x.y.z"]).2 = .ok 2 ∧
    Query refCollab (Materialize refCollab
        (Materialize refCollab (NewIndex listEngine) ["a.b.c.d", ""]).1
        ["a.b.c", "x.y.z"]).1 [97, 46, 98, 46, 99]
      = .error (unmappingError (missingDocError charQuote 0)) := by
  refine ⟨listEngine_laws, fun _ => ⟨[7], rfl⟩, rfl, rfl, rfl, ?_, rfl, rfl, rfl, rfl, rfl⟩
  intro h
  have h2 : Query oneTokenCollab (Materialize oneTokenCollab (NewIndex listEngine)
      ["a.b.c", "x.y.z"]).1 [7]
      = .ok [HashMetric charHash "a.b.c", HashMetric charHash "x.y.z"] := rfl
  rw [h2] at h
  injection h with h
  simp at h

/-- C12, amended: over a lawful postings engine and a tokenizer that succeeds on every given
name, on an index whose write structure holds no document, `Materialize names` returns the
number of names and, for every name `n` of `names`, the query for the tokens of `n` succeeds
and returns exactly the Metrics `HashMetric n2` of the names `n2` whose tokens include all
tokens of `n`; for the names `"a.b.c"`, `"x.y.z"`, when some token of `"a.b.c"` is not a
token of `"x.y.z"`, that query returns `[HashMetric "a.b.c"]` and `Materialize` returns 2. -/
theorem C12_rebuild_round_trip (C : Collaborators)
    (docs : C.engine.WriteIndex → List (DocID × List TermID)) (hl : C.engine.Laws docs)
    (pi : Index C.engine) (names : List String)
    (htok : ∀ n ∈ names, ∃ ts, C.Tokenize n = .ok ts) (hw : docs pi.writeIdx = []) :
    (Materialize C pi names).2 = .ok names.length ∧
    (∀ n ∈ names, ∀ q, C.Tokenize n = .ok q →
      ∃ ms, Query C (Materialize C pi names).1 q = .ok ms ∧
        ∀ m, m ∈ ms ↔ ∃ n2 ∈ names, ∃ ts, C.Tokenize n2 = .ok ts ∧ (∀ t ∈ q, t ∈ ts) ∧
          m = HashMetric C.HashStr64 n2) ∧
    (names = ["a.b.c", "x.y.z"] → ∀ q ts, C.Tokenize "a.b.c" = .ok q →
      C.Tokenize "x.y.z" = .ok ts → (∃ t ∈ q, t ∉ ts) →
      Query C (Materialize C pi names).1 q = .ok [HashMetric C.HashStr64 "a.b.c"] ∧
      (Materialize C pi names).2 = .ok 2) := by
  obtain ⟨hcount, _⟩ := Materialize_spec C docs hl pi names htok hw
  refine ⟨hcount, ?_, ?_⟩
  · intro n _ q _
    exact Query_after_Materialize C docs hl pi names htok hw q
  · intro hn q ts ha hx hdiff
    subst hn
    exact ⟨Query_two_names C docs hl pi "a.b.c" "x.y.z" q ts ha hx hw hdiff, hcount⟩

/-- C12, amended, on the reference instance: the query for the tokens of `"a.b.c"` after
`Materialize ["a.b.c", "x.y.z"]` on a new index. -/
theorem C12_rebuild_round_trip_witness :
    listEngine.Laws listEngine.docs ∧
    (∀ n ∈ ["a.b.c", "x.y.z"], ∃ ts, refCollab.Tokenize n = .ok ts) ∧
    listEngine.docs (NewIndex listEngine).writeIdx = [] ∧
    Query refCollab (Materialize refCollab (NewIndex listEngine) ["a.b.c", "x.y.z"]).1
        [97, 46, 98, 46, 99]
      = .ok [HashMetric refCollab.HashStr64 "a.b.c"] ∧
    (Materialize refCollab (NewIndex listEngine) ["a.b.c", "x.y.z"]).2 = .ok 2 :=
  have htok : ∀ n ∈ ["a.b.c", "x.y.z"], ∃ ts, refCollab.Tokenize n = .ok ts := by
    intro n hn
    simp only [List.mem_cons, List.mem_singleton, List.not_mem_nil, or_false] at hn
    rcases hn with e | e <;> subst e <;> exact ⟨_, rfl⟩
  ⟨listEngine_laws, htok, rfl,
    (C12_rebuild_round_trip refCollab listEngine.docs listEngine_laws (NewIndex listEngine)
      ["a.b.c", "x.y.z"] htok rfl).2.2 rfl [97, 46, 98, 46, 99] [120, 46, 121, 46, 122]
      rfl rfl ⟨97, by decide, by decide⟩⟩

/-- C13: after two successive `Materialize` calls whose names all tokenize, over a lawful
postings engine, the published generation reflects only the second call: every entry of the
Metric→raw-name map and of the Document→Metric map comes from a name of the second call, and
a query matched by no name of the second call returns the empty result without error. -/
theorem C13_rebuild_replaces (C : Collaborators)
    (docs : C.engine.WriteIndex → List (DocID × List TermID)) (hl : C.engine.Laws docs)
    (pi : Index C.engine) (names1 names2 : List String)
    (htok1 : ∀ n ∈ names1, ∃ ts, C.Tokenize n = .ok ts)
    (htok2 : ∀ n ∈ names2, ∃ ts, C.Tokenize n = .ok ts) :
    (Materialize C pi names1).2 = .ok names1.length ∧
    (Materialize C (Materialize C pi names1).1 names2).2 = .ok names2.length ∧
    (∀ m n, MetricMap (Materialize C (Materialize C pi names1).1 names2).1 m = some n →
      n ∈ names2 ∧ m = HashMetric C.HashStr64 n) ∧
    (∀ d m, docToMetricMap (Materialize C (Materialize C pi names1).1 names2).1 d = some m →
      ∃ n ∈ names2, m = HashMetric C.HashStr64 n) ∧
    (∀ q, (∀ n ∈ names2, ∀ ts, C.Tokenize n = .ok ts → ¬ ∀ t ∈ q, t ∈ ts) →
      Query C (Materialize C (Materialize C pi names1).1 names2).1 q = .ok []) := by
  obtain ⟨w1, dm1, mm1, _, em1⟩ := Materialize_ok C pi names1 htok1
  have hw : docs (Materialize C pi names1).1.writeIdx = [] := by
    rw [em1]; exact hl.empty w1
  obtain ⟨hc2, _, L, _, _, _, _, hdm, hmm⟩ :=
    Materialize_spec C docs hl (Materialize C pi names1).1 names2 htok2 hw
  refine ⟨by rw [em1], hc2, hmm, hdm, ?_⟩
  intro q hq
  obtain ⟨ms, e, hm⟩ :=
    Query_after_Materialize C docs hl (Materialize C pi names1).1 names2 htok2 hw q
  rw [e]
  congr 1
  apply List.eq_nil_iff_forall_not_mem.mpr
  intro m hmem
  obtain ⟨n, hn, ts, htk, hsub, _⟩ := (hm m).mp hmem
  exact hq n hn ts htk hsub

/-- C13 on the reference instance: after `Materialize ["a.b.c"]` and `Materialize ["x.y.z"]`
the query for the tokens of `"a.b.c"` returns the empty result. -/
theorem C13_rebuild_replaces_witness :
    listEngine.Laws listEngine.docs ∧
    (∀ n ∈ ["a.b.c"], ∃ ts, refCollab.Tokenize n = .ok ts) ∧
    (∀ n ∈ ["x.y.z"], ∃ ts, refCollab.Tokenize n = .ok ts) ∧
    Query refCollab (Materialize refCollab
        (Materialize refCollab (NewIndex listEngine) ["a.b.c"]).1 ["x.y.z"]).1
        [97, 46, 98, 46, 99] = .ok [] :=
  have h1 : ∀ n ∈ ["a.b.c"], ∃ ts, refCollab.Tokenize n = .ok ts := by
    intro n hn
    simp only [List.mem_singleton] at hn
    subst hn; exact ⟨_, rfl⟩
  have h2 : ∀ n ∈ ["x.y.z"], ∃ ts, refCollab.Tokenize n = .ok ts := by
    intro n hn
    simp only [List.mem_singleton] at hn
    subst hn; exact ⟨_, rfl⟩
  ⟨listEngine_laws, h1, h2,
    (C13_rebuild_replaces refCollab listEngine.docs listEngine_laws (NewIndex listEngine)
      ["a.b.c"] ["x.y.z"] h1 h2).2.2.2.2 [97, 46, 98, 46, 99] (by
        intro n hn ts hts hall
        simp only [List.mem_singleton] at hn
        subst hn
        have e : refCollab.Tokenize "x.y.z" = .ok [120, 46, 121, 46, 122] := rfl
        rw [e] at hts
        injection hts with hts
        subst hts
        exact absurd (hall 97 (by decide)) (by decide))⟩

/-- C14: when tokenization fails for some name of the input, `Materialize` panics (it returns
no count) and leaves the three published members (compiled structure, Document→Metric map,
Metric→raw-name map) as they were, so every query answers as before the call. -/
theorem C14_tokenize_failure_publishes_nothing (C : Collaborators) (pi : Index C.engine)
    (names : List String) (hfail : ∃ n ∈ names, ∃ e, C.Tokenize n = .error e) :
    (∃ p, (Materialize C pi names).2 = .error p) ∧
    (Materialize C pi names).1.idx = pi.idx ∧
    (Materialize C pi names).1.docMetric = pi.docMetric ∧
    (Materialize C pi names).1.metricMap = pi.metricMap ∧
    ∀ q, Query C (Materialize C pi names).1 q = Query C pi q := by
  obtain ⟨w1, p, e⟩ := Materialize_err C pi names hfail
  rw [e]
  exact ⟨⟨p, rfl⟩, rfl, rfl, rfl, fun q => Query_congr C _ _ q rfl rfl⟩

/-- C14 on the reference instance: on the generation of `Materialize ["a"]`, the call
`Materialize ["b", "", "c"]` panics at the empty name. -/
theorem C14_tokenize_failure_publishes_nothing_witness :
    (∃ n ∈ ["b", "", "c"], ∃ e, refCollab.Tokenize n = .error e) ∧
    ((∃ p, (Materialize refCollab exampleOld ["b", "", "c"]).2 = .error p) ∧
     (Materialize refCollab exampleOld ["b", "", "c"]).1.idx = exampleOld.idx ∧
     (Materialize refCollab exampleOld ["b", "", "c"]).1.docMetric = exampleOld.docMetric ∧
     (Materialize refCollab exampleOld ["b", "", "c"]).1.metricMap = exampleOld.metricMap ∧
     ∀ q, Query refCollab (Materialize refCollab exampleOld ["b", "", "c"]).1 q
        = Query refCollab exampleOld q) :=
  ⟨⟨"", by simp, "empty name", rfl⟩,
    C14_tokenize_failure_publishes_nothing refCollab exampleOld ["b", "", "c"]
      ⟨"", by simp, "empty name", rfl⟩⟩

/-- C15: when every name tokenizes, `Materialize` returns the length of the list of names
(duplicates and colliding names counted each time) and leaves as write structure the result
of `Empty`, which over a lawful engine holds no document. -/
theorem C15_materialize_count_and_reset (C : Collaborators) (pi : Index C.engine)
    (names : List String) (htok : ∀ n ∈ names, ∃ ts, C.Tokenize n = .ok ts) :
    (Materialize C pi names).2 = .ok names.length ∧
    (∃ w, (Materialize C pi names).1.writeIdx = C.engine.Empty w) ∧
    (∀ docs, C.engine.Laws docs → docs (Materialize C pi names).1.writeIdx = []) := by
  obtain ⟨w1, dm1, mm1, _, em⟩ := Materialize_ok C pi names htok
  rw [em]
  exact ⟨rfl, ⟨w1, rfl⟩, fun docs hl => hl.empty w1⟩

/-- C15 on the reference instance, with a repeated name. -/
theorem C15_materialize_count_and_reset_witness :
    (∀ n ∈ ["a", "b", "a"], ∃ ts, refCollab.Tokenize n = .ok ts) ∧
    (Materialize refCollab (NewIndex listEngine) ["a", "b", "a"]).2 = .ok 3 ∧
    listEngine.docs (Materialize refCollab (NewIndex listEngine) ["a", "b", "a"]).1.writeIdx
      = [] :=
  have htok : ∀ n ∈ ["a", "b", "a"], ∃ ts, refCollab.Tokenize n = .ok ts := by
    intro n hn
    simp only [List.mem_cons, List.mem_singleton, List.not_mem_nil, or_false] at hn
    rcases hn with e | e | e <;> subst e <;> exact ⟨_, rfl⟩
  ⟨htok,
    (C15_materialize_count_and_reset refCollab (NewIndex listEngine) ["a", "b", "a"] htok).1,
    (C15_materialize_count_and_reset refCollab (NewIndex listEngine) ["a", "b", "a"] htok).2.2
      listEngine.docs listEngine_laws⟩

/-- C16 fails as stated: on the reference instance, with the generation of `Materialize ["a"]`
published and `Materialize ["b"]` publishing, the schedule "`Query` loads the compiled
structure, `Materialize` performs its three stores, `Query` loads the map" makes the query
for the token of `"a"` return the Metric of `"b"`: the old compiled structure combined with
the new map, the answer of neither generation. -/
theorem C16_torn_read_counterexample :
    (Materialize refCollab (NewIndex listEngine) ["a"]).2 = .ok 1 ∧
    (Materialize refCollab exampleOld ["b"]).2 = .ok 1 ∧
    (stores exampleNew).foldl (fun s f => f s) exampleOld
      = { exampleNew with writeIdx := exampleOld.writeIdx } ∧
    refCollab.Tokenize "a" = .ok [97] ∧
    Query refCollab exampleOld [97] = .ok [HashMetric refCollab.HashStr64 "a"] ∧
    Query refCollab exampleNew [97] = .ok [] ∧
    (interleave refCollab [97] [false, true, true, true, false] exampleOld
        (stores exampleNew) .start).2
      = .done (.ok [HashMetric refCollab.HashStr64 "b"]) ∧
    HashMetric refCollab.HashStr64 "b" ≠ HashMetric refCollab.HashStr64 "a" :=
  ⟨rfl, rfl, rfl, rfl, rfl, rfl, rfl, by decide⟩

/-- C16, amended: a `Query` that runs while `Materialize` publishes computes its result from
the compiled structure current at its first load and the Document→Metric map current at its
second load.  With `a` stores before the first load and `b` more before the second, the
result is that of `Query` on the index holding the new compiled structure iff `1 ≤ a` and
the new map iff `2 ≤ a + b`: the pre-rebuild result when both loads precede the first store,
the post-rebuild result when both follow the second store, and otherwise a compiled structure
of one generation combined with the map of the other. -/
theorem C16_query_during_publication (C : Collaborators) (tokens : List Nat)
    (pi new : Index C.engine) (a b : Nat) (rest : List Bool) :
    (interleave C tokens
        (List.replicate a true ++ false :: (List.replicate b true ++ false :: rest))
        pi (stores new) .start).2 =
      .done (Query C
        { writeIdx := pi.writeIdx
          idx := if 1 ≤ a then new.idx else pi.idx
          docMetric := if 2 ≤ a + b then new.docMetric else pi.docMetric
          metricMap := pi.metricMap } tokens) ∧
    (interleave C tokens (false :: false :: rest) pi (stores new) .start).2 =
      .done (Query C pi tokens) ∧
    (interleave C tokens
        (List.replicate (a + 2) true ++ false :: (List.replicate b true ++ false :: rest))
        pi (stores new) .start).2 =
      .done (Query C new tokens) := by
  refine ⟨interleave_result C tokens pi new a b rest, ?_, ?_⟩
  · have := interleave_result C tokens pi new 0 0 rest
    simp only [List.replicate_zero, List.nil_append] at this
    rw [this]
    congr 1
  · rw [interleave_result C tokens pi new (a + 2) b rest]
    congr 1
    apply Query_congr
    · simp
    · have : 2 ≤ a + 2 + b := by omega
      simp [this]

/-- C17 at the failing input: the first iteration of `IntersectMetrics` on the sorted
sequences `[1,2,3]`, `[1,2,3]` starts from the heap `[[1,2,3],[1,2,3]]` with both sequences
marked, and ends with the heap `[[1,2,3],[3]]`: one sequence advanced by two positions, the
other not advanced. -/
theorem C17_iteration_advances_one_sequence_twice :
    AllSorted [[1, 2, 3], [1, 2, 3]] ∧
    IntersectMetrics.pushAll [[1, 2, 3], [1, 2, 3]] [] = .ok (some [[1, 2, 3], [1, 2, 3]]) ∧
    IntersectMetrics.scan 1 [[1, 2, 3], [1, 2, 3]] = .ok ([true, true], 2) ∧
    IntersectMetrics.iter 2 [[1, 2, 3], [1, 2, 3]] [] = .ok (.inr ([[1, 2, 3], [3]], [1])) ∧
    ¬ List.Perm [[1, 2, 3], [3]] [[2, 3], [2, 3]] :=
  ⟨by decide, rfl, rfl, rfl, by decide⟩

/-- C18: for every input collection, sorted or not, `IntersectMetrics` returns a list each of
whose elements occurs in every input sequence. -/
theorem C18_intersect_sound (sets : List (List Nat)) :
    ∃ r, IntersectMetrics sets = .ok r ∧ ∀ x ∈ r, ∀ s ∈ sets, x ∈ s := by
  obtain ⟨r, er, _, _, mr, _⟩ := IntersectMetrics_spec sets
  exact ⟨r, er, mr⟩

/-- C19: `UnionMetrics` and `IntersectMetrics` return on every input, sorted or not, within
the fuel `totalLen + 1`.  Each loop is its body followed by the loop on the next state; a
pass through the body of `UnionMetrics` removes exactly one element; a pass through the body
of `IntersectMetrics` marks the heap root and either returns or leaves strictly fewer
elements, with the heap sequences still non-empty and as many as before. -/
theorem C19_loops_terminate (sets : List (List Nat)) :
    (∃ r, UnionMetrics sets = .ok r) ∧ (∃ r, IntersectMetrics sets = .ok r) ∧
    (∀ fuel h set, UnionMetrics.loop (fuel + 1) h set =
      if MetricSetsHeap.Len h > 0 then
        match UnionMetrics.iter h set with
        | .error e => .error e
        | .ok (h1, set1) => UnionMetrics.loop fuel h1 set1
      else .ok set) ∧
    (∀ h set, NE h → h ≠ [] →
      ∃ h1 set1, UnionMetrics.iter h set = .ok (h1, set1) ∧
        totalLen h1 + 1 = totalLen h ∧ NE h1) ∧
    (∀ n fuel h set, IntersectMetrics.loop n (fuel + 1) h set =
      match IntersectMetrics.iter n h set with
      | .error e => .error e
      | .ok (.inl set1) => .ok set1
      | .ok (.inr (h1, set1)) => IntersectMetrics.loop n fuel h1 set1) ∧
    (∀ n h set, NE h → h ≠ [] →
      (∃ fx p m, h[0]?.bind List.head? = some m ∧
        IntersectMetrics.scan m h = .ok (true :: fx, p)) ∧
      ((∃ s, IntersectMetrics.iter n h set = .ok (.inl s)) ∨
       (∃ h1 s1, IntersectMetrics.iter n h set = .ok (.inr (h1, s1)) ∧
          totalLen h1 < totalLen h ∧ NE h1 ∧ h1.length = h.length))) := by
  obtain ⟨r, er, _⟩ := UnionMetrics_spec sets
  obtain ⟨r2, er2, _⟩ := IntersectMetrics_spec sets
  refine ⟨⟨r, er⟩, ⟨r2, er2⟩, UnionMetrics.union_loop_iter, ?_, IntersectMetrics.intersect_loop_iter,
    IntersectMetrics.intersect_iter_spec⟩
  intro h set hne hpos
  obtain ⟨m, tl, rest, h1, _, e, _, ht, hn⟩ := UnionMetrics.union_iter_spec h set hne hpos
  exact ⟨h1, _, e, ht, hn⟩

/-- C20: the Tag copies compute the same functions as the Metric originals: on every
collection of sequences `UnionTags` returns what `UnionMetrics` returns and `IntersectTags`
what `IntersectMetrics` returns, and all four return a list. -/
theorem C20_tag_copies_agree (sets : List (List Nat)) :
    UnionTags sets = UnionMetrics sets ∧ IntersectTags sets = IntersectMetrics sets ∧
    (∃ r, UnionTags sets = .ok r) ∧ (∃ r, IntersectTags sets = .ok r) := by
  obtain ⟨r, er, _⟩ := UnionMetrics_spec sets
  obtain ⟨r2, er2, _⟩ := IntersectMetrics_spec sets
  exact ⟨UnionTags_eq sets, IntersectTags_eq sets, ⟨r, by rw [UnionTags_eq]; exact er⟩,
    ⟨r2, by rw [IntersectTags_eq]; exact er2⟩⟩

end Carbonsearch
